import Mathlib

/-!
# Verification of the pmibot connect-clicker against its design specification

This file gives a shallow embedding, in Lean 4, of the two Python drivers of the
pmibot repository (`simple_click_connect_attach.py`, the autonomous CDP-attached
driver, and `click_connect_helper.py`, the interactive helper), restricted to the
parts the specification's testable properties talk about:

* the URL/pagination-cursor manipulation built on Python's `urllib.parse`
  (`urlsplit`, `parse_qs`, `urlencode`, `urlunsplit`) and `int()`;
* the autonomous driver's main loop: rollback detection and recovery, the
  per-page skip registry, the invite-modal submit workflow, the post-click
  confirmation poll, and click/page limits.

Python strings are modeled as `List Char` (Unicode scalar values; lone
surrogates, which CPython's `quote` would reject anyway, are not representable).
The `urllib.parse` helpers are translated from CPython's implementation,
including the WHATWG control-character sanitisation of `urlsplit`, the
`Invalid IPv6 URL` failure (modeled as `Option`), percent-decoding through
UTF-8 bytes with replacement characters, and `quote_plus` encoding.
`int()` is modeled on its ASCII fragment (optional ASCII whitespace, one sign,
ASCII digits with single underscores between digits); non-ASCII decimal digits
accepted by CPython are outside the model.

Effectful Playwright calls made by the autonomous driver are modeled with an
oracle: a list of events, one per browser/clock call, consumed in program
order, together with a trace of the actions (clicks, navigations, attribute
writes, wheel scrolls) the driver performs.  Log output (`print`/`logging`)
and the `page.url` reads occurring only inside log messages are not modeled;
unbounded `while` loops take an explicit fuel argument and signal exhaustion
by getting stuck.
-/

namespace Pmibot

/-! ## Character classes (ASCII, as used by `urllib.parse` and `int()`) -/

def isAsciiUpperChar (c : Char) : Bool := decide (0x41 ≤ c.toNat ∧ c.toNat ≤ 0x5A)

def isAsciiLowerChar (c : Char) : Bool := decide (0x61 ≤ c.toNat ∧ c.toNat ≤ 0x7A)

def isAsciiDigitChar (c : Char) : Bool := decide (0x30 ≤ c.toNat ∧ c.toNat ≤ 0x39)

def isAsciiAlphaChar (c : Char) : Bool := isAsciiUpperChar c || isAsciiLowerChar c

/-- CPython `scheme_chars`: letters, digits and `+-.` (used to validate a URL scheme). -/
def isSchemeChar (c : Char) : Bool :=
  isAsciiAlphaChar c || isAsciiDigitChar c || c = '+' || c = '-' || c = '.'

/-- `str.lower` restricted to ASCII letters (all reachable scheme characters are ASCII). -/
def lowerAsciiChar (c : Char) : Char :=
  if isAsciiUpperChar c then Char.ofNat (c.toNat + 32) else c

/-- Characters in CPython's `Quoter` always-safe set: letters, digits and `_.-~`. -/
def isAlwaysSafeChar (c : Char) : Bool :=
  isAsciiAlphaChar c || isAsciiDigitChar c || c = '_' || c = '.' || c = '-' || c = '~'

def isAsciiChar (c : Char) : Bool := decide (c.toNat < 128)

def isHexDigitChar (c : Char) : Bool :=
  isAsciiDigitChar c || decide (0x61 ≤ c.toNat ∧ c.toNat ≤ 0x66) ||
    decide (0x41 ≤ c.toNat ∧ c.toNat ≤ 0x46)

def hexDigitVal (c : Char) : Nat :=
  if isAsciiDigitChar c then c.toNat - 0x30
  else if decide (0x61 ≤ c.toNat ∧ c.toNat ≤ 0x66) then c.toNat - 0x61 + 10
  else if decide (0x41 ≤ c.toNat ∧ c.toNat ≤ 0x46) then c.toNat - 0x41 + 10
  else 0

/-- Upper-case hexadecimal digit for `n < 16` (as produced by CPython's `Quoter`). -/
def hexUpperDigit (n : Nat) : Char :=
  if n < 10 then Char.ofNat (0x30 + n) else Char.ofNat (0x41 + n - 10)

/-- The two upper-case hex digits of a byte `b < 256`. -/
def hexUpperByte (b : Nat) : List Char := [hexUpperDigit (b / 16), hexUpperDigit (b % 16)]

theorem char_eq_iff_toNat {c d : Char} : c = d ↔ c.toNat = d.toNat := by
  constructor
  · intro h; rw [h]
  · intro h
    have := congrArg Char.ofNat h
    rwa [Char.ofNat_toNat, Char.ofNat_toNat] at this

/-! ## List helpers mirroring Python string primitives -/

/-- `s.split(sep, 1)` position: splits a list at the first occurrence of `c`
(the separator removed); `none` when `c` does not occur. -/
def splitFirst (c : Char) : List Char → Option (List Char × List Char)
  | [] => none
  | x :: xs =>
    if x = c then some ([], xs)
    else match splitFirst c xs with
      | some (a, b) => some (x :: a, b)
      | none => none

/-- Python `str.split(sep)` for a one-character separator: always at least one piece,
`"".split(sep) == [""]`. -/
def splitSep (c : Char) : List Char → List (List Char)
  | [] => [[]]
  | x :: xs =>
    if x = c then [] :: splitSep c xs
    else match splitSep c xs with
      | p :: ps => (x :: p) :: ps
      | [] => [[x]]

/-- Python's `in` on strings (contiguous substring test). -/
def listHasSub (needle hay : List Char) : Bool :=
  if needle.isPrefixOf hay then true
  else match hay with
    | [] => needle.isEmpty
    | _ :: t => listHasSub needle t

/-! ## Lemmas about `splitFirst` and `splitSep` -/

theorem splitFirst_eq_none {c : Char} {l : List Char} (h : c ∉ l) :
    splitFirst c l = none := by
  induction l with
  | nil => rfl
  | cons x xs ih =>
    simp only [List.mem_cons, not_or] at h
    simp only [splitFirst]
    rw [if_neg (by intro hx; exact h.1 hx.symm), ih h.2]

theorem splitFirst_append_cons {c : Char} {l₁ l₂ : List Char} (h : c ∉ l₁) :
    splitFirst c (l₁ ++ c :: l₂) = some (l₁, l₂) := by
  induction l₁ with
  | nil => simp [splitFirst]
  | cons x xs ih =>
    simp only [List.mem_cons, not_or] at h
    simp only [List.cons_append, splitFirst, List.append_eq]
    rw [if_neg (by intro hx; exact h.1 hx.symm), ih h.2]

theorem splitFirst_eq_some {c : Char} {l a b : List Char}
    (h : splitFirst c l = some (a, b)) : l = a ++ c :: b ∧ c ∉ a := by
  induction l generalizing a b with
  | nil => simp [splitFirst] at h
  | cons x xs ih =>
    simp only [splitFirst] at h
    by_cases hx : x = c
    · rw [if_pos hx] at h
      obtain ⟨rfl, rfl⟩ := by simpa using h
      simp [hx]
    · rw [if_neg hx] at h
      match hs : splitFirst c xs with
      | some (a', b') =>
        rw [hs] at h
        obtain ⟨rfl, rfl⟩ := by simpa using h
        obtain ⟨h1, h2⟩ := ih hs
        constructor
        · simp [h1]
        · simp only [List.mem_cons, not_or]
          exact ⟨fun hh => hx hh.symm, h2⟩
      | none => rw [hs] at h; cases h

/-- Splitting after a separator-free prefix splits in the suffix. -/
theorem splitFirst_append {c : Char} {l m : List Char} (h : c ∉ l) :
    splitFirst c (l ++ m) =
      (splitFirst c m).map (fun p => (l ++ p.1, p.2)) := by
  induction l with
  | nil => simp
  | cons x xs ih =>
    simp only [List.mem_cons, not_or] at h
    simp only [List.cons_append, splitFirst, List.append_eq]
    rw [if_neg (by intro hx; exact h.1 hx.symm), ih h.2]
    cases splitFirst c m with
    | none => rfl
    | some p => rfl

theorem splitSep_sepFree {c : Char} {l : List Char} (h : c ∉ l) :
    splitSep c l = [l] := by
  induction l with
  | nil => rfl
  | cons x xs ih =>
    simp only [List.mem_cons, not_or] at h
    simp only [splitSep]
    rw [if_neg (by intro hx; exact h.1 hx.symm), ih h.2]

theorem splitSep_append_cons {c : Char} {l₁ l₂ : List Char} (h : c ∉ l₁) :
    splitSep c (l₁ ++ c :: l₂) = l₁ :: splitSep c l₂ := by
  induction l₁ with
  | nil => simp [splitSep]
  | cons x xs ih =>
    simp only [List.mem_cons, not_or] at h
    simp only [List.cons_append, splitSep, List.append_eq]
    rw [if_neg (by intro hx; exact h.1 hx.symm), ih h.2]

/-- Splitting an intercalation of separator-free pieces recovers the pieces. -/
theorem splitSep_intercalate {c : Char} (ps : List (List Char))
    (h : ∀ p ∈ ps, c ∉ p) (hne : ps ≠ []) :
    splitSep c (List.intercalate [c] ps) = ps := by
  induction ps with
  | nil => exact absurd rfl hne
  | cons p ps ih =>
    cases ps with
    | nil => simpa [List.intercalate] using splitSep_sepFree (h p (by simp))
    | cons q qs =>
      have hjoin : List.intercalate [c] (p :: q :: qs) =
          p ++ c :: List.intercalate [c] (q :: qs) := by
        simp [List.intercalate, List.intersperse]
      rw [hjoin, splitSep_append_cons (h p (by simp))]
      rw [ih (fun x hx => h x (by simp [hx])) (by simp)]

/-! ## UTF-8 encoding and decoding

CPython's `urllib.parse.unquote` percent-decodes into bytes and decodes those
bytes as UTF-8 with `errors='replace'`; `quote` encodes non-safe characters to
their UTF-8 bytes.  The decoder below follows CPython's replacement behaviour
(one U+FFFD per maximal invalid subpart). -/

def replacementChar : Char := Char.ofNat 0xFFFD

def utf8EncodeChar (c : Char) : List Nat :=
  let n := c.toNat
  if n < 0x80 then [n]
  else if n < 0x800 then [0xC0 + n / 0x40, 0x80 + n % 0x40]
  else if n < 0x10000 then
    [0xE0 + n / 0x1000, 0x80 + n / 0x40 % 0x40, 0x80 + n % 0x40]
  else
    [0xF0 + n / 0x40000, 0x80 + n / 0x1000 % 0x40, 0x80 + n / 0x40 % 0x40, 0x80 + n % 0x40]

/-- A UTF-8 continuation byte. -/
def isContByte (b : Nat) : Prop := 0x80 ≤ b ∧ b ≤ 0xBF

instance (b : Nat) : Decidable (isContByte b) := by unfold isContByte; infer_instance

/-- One step of CPython-style UTF-8 decoding with `errors='replace'`, driven by
fuel (the decoder's caller passes the byte count, which always suffices since
every emitted character consumes at least one byte). -/
def utf8DecodeLoop : Nat → List Nat → List Char
  | _, [] => []
  | 0, _ :: _ => []
  | fuel+1, b0 :: rest =>
    if b0 < 0x80 then Char.ofNat b0 :: utf8DecodeLoop fuel rest
    else if 0xC2 ≤ b0 ∧ b0 ≤ 0xDF then
      match rest with
      | b1 :: rest1 =>
        if isContByte b1 then
          Char.ofNat ((b0 - 0xC0) * 0x40 + (b1 - 0x80)) :: utf8DecodeLoop fuel rest1
        else replacementChar :: utf8DecodeLoop fuel rest
      | [] => [replacementChar]
    else if 0xE0 ≤ b0 ∧ b0 ≤ 0xEF then
      match rest with
      | b1 :: rest1 =>
        if (b0 = 0xE0 ∧ 0xA0 ≤ b1 ∧ b1 ≤ 0xBF) ∨ (0xE1 ≤ b0 ∧ b0 ≤ 0xEC ∧ isContByte b1) ∨
            (b0 = 0xED ∧ 0x80 ≤ b1 ∧ b1 ≤ 0x9F) ∨ (0xEE ≤ b0 ∧ isContByte b1) then
          match rest1 with
          | b2 :: rest2 =>
            if isContByte b2 then
              Char.ofNat ((b0 - 0xE0) * 0x1000 + (b1 - 0x80) * 0x40 + (b2 - 0x80)) ::
                utf8DecodeLoop fuel rest2
            else replacementChar :: utf8DecodeLoop fuel rest1
          | [] => [replacementChar]
        else replacementChar :: utf8DecodeLoop fuel rest
      | [] => [replacementChar]
    else if 0xF0 ≤ b0 ∧ b0 ≤ 0xF4 then
      match rest with
      | b1 :: rest1 =>
        if (b0 = 0xF0 ∧ 0x90 ≤ b1 ∧ b1 ≤ 0xBF) ∨ (0xF1 ≤ b0 ∧ b0 ≤ 0xF3 ∧ isContByte b1) ∨
            (b0 = 0xF4 ∧ 0x80 ≤ b1 ∧ b1 ≤ 0x8F) then
          match rest1 with
          | b2 :: rest2 =>
            if isContByte b2 then
              match rest2 with
              | b3 :: rest3 =>
                if isContByte b3 then
                  Char.ofNat ((b0 - 0xF0) * 0x40000 + (b1 - 0x80) * 0x1000 +
                    (b2 - 0x80) * 0x40 + (b3 - 0x80)) :: utf8DecodeLoop fuel rest3
                else replacementChar :: utf8DecodeLoop fuel rest2
              | [] => [replacementChar]
            else replacementChar :: utf8DecodeLoop fuel rest1
          | [] => [replacementChar]
        else replacementChar :: utf8DecodeLoop fuel rest
      | [] => [replacementChar]
    else replacementChar :: utf8DecodeLoop fuel rest

/-- UTF-8 decoding with replacement: every emitted character consumes at least one
byte, so the list length is enough fuel. -/
def utf8DecodeReplace (l : List Nat) : List Char := utf8DecodeLoop l.length l

theorem utf8EncodeChar_ascii {c : Char} (h : c.toNat < 0x80) :
    utf8EncodeChar c = [c.toNat] := by
  unfold utf8EncodeChar
  rw [if_pos h]

/-- Valid-scalar-value bounds for a `Char`. -/
theorem char_toNat_bounds (c : Char) :
    c.toNat < 0xD800 ∨ (0xDFFF < c.toNat ∧ c.toNat < 0x110000) := by
  have hv := c.valid
  rcases hv with h | ⟨h1, h2⟩
  · exact Or.inl h
  · exact Or.inr ⟨h1, h2⟩

/-- Decoding the concatenated UTF-8 encodings of a character list recovers the list,
given enough fuel. -/
theorem utf8DecodeLoop_flatMap_encode (l : List Char) :
    ∀ fuel, (l.flatMap utf8EncodeChar).length ≤ fuel →
      utf8DecodeLoop fuel (l.flatMap utf8EncodeChar) = l := by
  induction l with
  | nil =>
    intro fuel _
    cases fuel <;> rfl
  | cons c cs ih =>
    intro fuel h
    rw [List.flatMap_cons] at h ⊢
    have hb := char_toNat_bounds c
    have hofn : Char.ofNat c.toNat = c := Char.ofNat_toNat c
    by_cases h1 : c.toNat < 0x80
    · have henc : utf8EncodeChar c = [c.toNat] := utf8EncodeChar_ascii h1
      rw [henc] at h ⊢
      simp only [List.length_append, List.length_cons, List.length_nil] at h
      cases fuel with
      | zero => omega
      | succ fuel' =>
        simp only [List.cons_append, List.nil_append]
        simp only [utf8DecodeLoop]
        rw [if_pos h1, hofn, ih fuel' (by omega)]
    · by_cases h2 : c.toNat < 0x800
      · have henc : utf8EncodeChar c = [0xC0 + c.toNat / 0x40, 0x80 + c.toNat % 0x40] := by
          unfold utf8EncodeChar
          rw [if_neg h1, if_pos h2]
        rw [henc] at h ⊢
        simp only [List.length_append, List.length_cons, List.length_nil] at h
        cases fuel with
        | zero => omega
        | succ fuel' =>
          simp only [List.cons_append, List.nil_append]
          simp only [utf8DecodeLoop]
          rw [if_neg (by omega), if_pos (by omega),
            if_pos (by unfold isContByte; omega)]
          have harith : (0xC0 + c.toNat / 0x40 - 0xC0) * 0x40 + (0x80 + c.toNat % 0x40 - 0x80) =
              c.toNat := by omega
          rw [harith, hofn, ih fuel' (by omega)]
      · by_cases h3 : c.toNat < 0x10000
        · have henc : utf8EncodeChar c =
              [0xE0 + c.toNat / 0x1000, 0x80 + c.toNat / 0x40 % 0x40, 0x80 + c.toNat % 0x40] := by
            unfold utf8EncodeChar
            rw [if_neg h1, if_neg h2, if_pos h3]
          rw [henc] at h ⊢
          simp only [List.length_append, List.length_cons, List.length_nil] at h
          cases fuel with
          | zero => omega
          | succ fuel' =>
            simp only [List.cons_append, List.nil_append]
            simp only [utf8DecodeLoop]
            rw [if_neg (by omega), if_neg (by omega), if_pos (by omega)]
            rw [if_pos (by
              unfold isContByte
              by_cases he0 : c.toNat < 0x1000
              · exact Or.inl ⟨by omega, by omega, by omega⟩
              · by_cases hee : 0xE000 ≤ c.toNat
                · exact Or.inr (Or.inr (Or.inr ⟨by omega, by omega, by omega⟩))
                · by_cases hed : 0xD000 ≤ c.toNat
                  · exact Or.inr (Or.inr (Or.inl ⟨by omega, by omega, by omega⟩))
                  · exact Or.inr (Or.inl ⟨by omega, by omega, by omega, by omega⟩))]
            rw [if_pos (by unfold isContByte; omega)]
            have harith : (0xE0 + c.toNat / 0x1000 - 0xE0) * 0x1000 +
                (0x80 + c.toNat / 0x40 % 0x40 - 0x80) * 0x40 + (0x80 + c.toNat % 0x40 - 0x80) =
                c.toNat := by omega
            rw [harith, hofn, ih fuel' (by omega)]
        · have henc : utf8EncodeChar c =
              [0xF0 + c.toNat / 0x40000, 0x80 + c.toNat / 0x1000 % 0x40,
                0x80 + c.toNat / 0x40 % 0x40, 0x80 + c.toNat % 0x40] := by
            unfold utf8EncodeChar
            rw [if_neg h1, if_neg h2, if_neg h3]
          rw [henc] at h ⊢
          simp only [List.length_append, List.length_cons, List.length_nil] at h
          cases fuel with
          | zero => omega
          | succ fuel' =>
            simp only [List.cons_append, List.nil_append]
            simp only [utf8DecodeLoop]
            rw [if_neg (by omega), if_neg (by omega), if_neg (by omega),
              if_pos (by omega)]
            rw [if_pos (by
              unfold isContByte
              by_cases hf0 : c.toNat < 0x40000
              · exact Or.inl ⟨by omega, by omega, by omega⟩
              · by_cases hf4 : 0x100000 ≤ c.toNat
                · exact Or.inr (Or.inr ⟨by omega, by omega, by omega⟩)
                · exact Or.inr (Or.inl ⟨by omega, by omega, by omega, by omega⟩))]
            rw [if_pos (by unfold isContByte; omega), if_pos (by unfold isContByte; omega)]
            have harith : (0xF0 + c.toNat / 0x40000 - 0xF0) * 0x40000 +
                (0x80 + c.toNat / 0x1000 % 0x40 - 0x80) * 0x1000 +
                (0x80 + c.toNat / 0x40 % 0x40 - 0x80) * 0x40 + (0x80 + c.toNat % 0x40 - 0x80) =
                c.toNat := by omega
            rw [harith, hofn, ih fuel' (by omega)]

theorem utf8DecodeReplace_flatMap_encode (l : List Char) :
    utf8DecodeReplace (l.flatMap utf8EncodeChar) = l :=
  utf8DecodeLoop_flatMap_encode l _ le_rfl

theorem utf8EncodeChar_bytes_lt (c : Char) : ∀ b ∈ utf8EncodeChar c, b < 256 := by
  have hb := char_toNat_bounds c
  unfold utf8EncodeChar
  by_cases h1 : c.toNat < 0x80
  · rw [if_pos h1]; intro b hbm; simp at hbm; omega
  · rw [if_neg h1]
    by_cases h2 : c.toNat < 0x800
    · rw [if_pos h2]; intro b hbm; simp at hbm
      rcases hbm with h | h <;> omega
    · rw [if_neg h2]
      by_cases h3 : c.toNat < 0x10000
      · rw [if_pos h3]; intro b hbm; simp at hbm
        rcases hbm with h | h | h <;> omega
      · rw [if_neg h3]; intro b hbm; simp at hbm
        rcases hbm with h | h | h | h <;> omega

/-! ## Percent-decoding, `quote_plus`, `unquote` (from CPython `urllib.parse`) -/

/-- Processing of one piece after splitting on `%` in `unquote_to_bytes`:
a leading pair of hex digits becomes a byte, otherwise the `%` is literal. -/
def pctDecodePiece (p : List Char) : List Nat :=
  match p with
  | h1 :: h2 :: rest =>
    if isHexDigitChar h1 ∧ isHexDigitChar h2 then
      (hexDigitVal h1 * 16 + hexDigitVal h2) :: rest.map Char.toNat
    else '%'.toNat :: (h1 :: h2 :: rest).map Char.toNat
  | _ => '%'.toNat :: p.map Char.toNat

/-- `urllib.parse.unquote_to_bytes` on a string of ASCII characters: split on `%`,
keep the first piece literal, decode a leading hex pair of each later piece. -/
def pctDecode (l : List Char) : List Nat :=
  match splitSep '%' l with
  | p :: ps => p.map Char.toNat ++ ps.flatMap pctDecodePiece
  | [] => []

/-- `urllib.parse.unquote(s, errors='replace')`: maximal ASCII runs are
percent-decoded to bytes and UTF-8-decoded; other characters pass through.
(CPython splits on the regex `([\x00-\x7f]+)` and percent-decodes the ASCII
groups only.)  Fuel is the length of the input, which always suffices. -/
def pyUnquoteLoop : Nat → List Char → List Char
  | _, [] => []
  | 0, l => l
  | fuel+1, c :: rest =>
    if isAsciiChar c then
      utf8DecodeReplace (pctDecode (List.takeWhile isAsciiChar (c :: rest))) ++
        pyUnquoteLoop fuel (List.dropWhile isAsciiChar (c :: rest))
    else c :: pyUnquoteLoop fuel rest

def pyUnquote (l : List Char) : List Char := pyUnquoteLoop l.length l

def plusToSpace (c : Char) : Char := if c = '+' then ' ' else c

/-- `urllib.parse.unquote_plus`: `+` becomes a space, then `unquote`. -/
def unquote_plus (l : List Char) : List Char := pyUnquote (l.map plusToSpace)

/-- One character of `urllib.parse.quote_plus(s, safe='')`: always-safe characters
kept, a space becomes `+`, anything else is percent-encoded per UTF-8 byte.
(CPython's two branches — `quote(s, '')` when there is no space, else
`quote(s, ' ').replace(' ', '+')` — agree with this character-wise form, since
`+` itself is never in the safe set.) -/
def quotePlusChar (c : Char) : List Char :=
  if isAlwaysSafeChar c then [c]
  else if c = ' ' then ['+']
  else (utf8EncodeChar c).flatMap (fun b => '%' :: hexUpperByte b)

def quote_plus (l : List Char) : List Char := l.flatMap quotePlusChar

/-! ### Lemmas: `unquote_plus` is a left inverse of `quote_plus` -/

theorem splitSep_ne_nil (c : Char) (l : List Char) : splitSep c l ≠ [] := by
  cases l with
  | nil => simp [splitSep]
  | cons x xs =>
    unfold splitSep
    by_cases hx : x = c
    · rw [if_pos hx]; simp
    · rw [if_neg hx]
      cases splitSep c xs <;> simp

theorem pctDecode_cons_of_ne {c : Char} (h : ¬c = '%') (l : List Char) :
    pctDecode (c :: l) = c.toNat :: pctDecode l := by
  obtain ⟨p, ps, hps⟩ : ∃ p ps, splitSep '%' l = p :: ps := by
    cases hsp : splitSep '%' l with
    | nil => exact absurd hsp (splitSep_ne_nil _ _)
    | cons p ps => exact ⟨p, ps, rfl⟩
  have hsp2 : splitSep '%' (c :: l) = (c :: p) :: ps := by
    unfold splitSep; rw [if_neg h, hps]
  unfold pctDecode
  rw [hsp2, hps]
  simp

theorem hexDigitChar_ne_pct {c : Char} (h : isHexDigitChar c = true) : ¬c = '%' := by
  intro he
  rw [he] at h
  exact absurd h (by decide)

theorem pctDecode_pct_hex {h1 h2 : Char} (hh1 : isHexDigitChar h1 = true)
    (hh2 : isHexDigitChar h2 = true) (l : List Char) :
    pctDecode ('%' :: h1 :: h2 :: l) = (hexDigitVal h1 * 16 + hexDigitVal h2) :: pctDecode l := by
  obtain ⟨p, ps, hps⟩ : ∃ p ps, splitSep '%' l = p :: ps := by
    cases hsp : splitSep '%' l with
    | nil => exact absurd hsp (splitSep_ne_nil _ _)
    | cons p ps => exact ⟨p, ps, rfl⟩
  have hsp2 : splitSep '%' ('%' :: h1 :: h2 :: l) = [] :: (h1 :: h2 :: p) :: ps := by
    unfold splitSep
    rw [if_pos rfl]
    unfold splitSep
    rw [if_neg (hexDigitChar_ne_pct hh1)]
    unfold splitSep
    rw [if_neg (hexDigitChar_ne_pct hh2), hps]
  unfold pctDecode
  rw [hsp2, hps]
  simp [pctDecodePiece, hh1, hh2]

theorem hexUpperDigit_spec : ∀ n, n < 16 →
    isHexDigitChar (hexUpperDigit n) = true ∧ hexDigitVal (hexUpperDigit n) = n ∧
      (hexUpperDigit n).toNat < 128 ∧ ¬hexUpperDigit n = '%' ∧ ¬hexUpperDigit n = '+' ∧
      ((0x30 ≤ (hexUpperDigit n).toNat ∧ (hexUpperDigit n).toNat ≤ 0x39) ∨
        (0x41 ≤ (hexUpperDigit n).toNat ∧ (hexUpperDigit n).toNat ≤ 0x46)) := by
  decide

/-- One percent-encoded byte decodes back to the byte. -/
theorem pctDecode_byte {b : Nat} (hb : b < 256) (l : List Char) :
    pctDecode ('%' :: hexUpperByte b ++ l) = b :: pctDecode l := by
  have hd1 := hexUpperDigit_spec (b / 16) (by omega)
  have hd2 := hexUpperDigit_spec (b % 16) (by omega)
  show pctDecode ('%' :: hexUpperDigit (b / 16) :: hexUpperDigit (b % 16) :: l) = _
  rw [pctDecode_pct_hex hd1.1 hd2.1, hd1.2.1, hd2.2.1]
  congr 1
  omega

/-- Percent-encoded byte blocks decode back to the bytes. -/
theorem pctDecode_pctBytes (bytes : List Nat) (hb : ∀ b ∈ bytes, b < 256) (l : List Char) :
    pctDecode (bytes.flatMap (fun b => '%' :: hexUpperByte b) ++ l) = bytes ++ pctDecode l := by
  induction bytes with
  | nil => simp
  | cons b bs ih =>
    have hblt : b < 256 := hb b (by simp)
    rw [List.flatMap_cons, List.append_assoc, pctDecode_byte hblt]
    rw [ih (fun x hx => hb x (by simp [hx]))]
    simp

/-- Numeric characterisation of the always-safe set. -/
theorem isAlwaysSafeChar_toNat {c : Char} (h : isAlwaysSafeChar c = true) :
    (0x41 ≤ c.toNat ∧ c.toNat ≤ 0x5A) ∨ (0x61 ≤ c.toNat ∧ c.toNat ≤ 0x7A) ∨
      (0x30 ≤ c.toNat ∧ c.toNat ≤ 0x39) ∨ c.toNat = 0x5F ∨ c.toNat = 0x2E ∨
      c.toNat = 0x2D ∨ c.toNat = 0x7E := by
  have h5f : ('_' : Char).toNat = 0x5F := rfl
  have h2e : ('.' : Char).toNat = 0x2E := rfl
  have h2d : ('-' : Char).toNat = 0x2D := rfl
  have h7e : ('~' : Char).toNat = 0x7E := rfl
  unfold isAlwaysSafeChar isAsciiAlphaChar isAsciiUpperChar isAsciiLowerChar isAsciiDigitChar at h
  simp only [Bool.or_eq_true, decide_eq_true_eq, char_eq_iff_toNat, h5f, h2e, h2d, h7e] at h
  tauto

theorem safeChar_ascii {c : Char} (h : isAlwaysSafeChar c = true) : c.toNat < 128 := by
  have := isAlwaysSafeChar_toNat h
  omega

theorem safeChar_ne_pct {c : Char} (h : isAlwaysSafeChar c = true) : ¬c = '%' := by
  have := isAlwaysSafeChar_toNat h
  rw [char_eq_iff_toNat]
  have hp : ('%' : Char).toNat = 0x25 := rfl
  omega

theorem safeChar_ne_plus {c : Char} (h : isAlwaysSafeChar c = true) : ¬c = '+' := by
  have := isAlwaysSafeChar_toNat h
  rw [char_eq_iff_toNat]
  have hp : ('+' : Char).toNat = 0x2B := rfl
  omega

theorem flatMap_congr_mem {α β : Type} {l : List α} {f g : α → List β}
    (h : ∀ x ∈ l, f x = g x) : l.flatMap f = l.flatMap g := by
  induction l with
  | nil => rfl
  | cons x xs ih =>
    rw [List.flatMap_cons, List.flatMap_cons, h x (by simp),
      ih (fun y hy => h y (by simp [hy]))]

/-- `quote_plus` output after mapping `+` back to space, seen character by character. -/
def quotePlusCharSp (c : Char) : List Char :=
  if isAlwaysSafeChar c then [c]
  else if c = ' ' then [' ']
  else (utf8EncodeChar c).flatMap (fun b => '%' :: hexUpperByte b)

theorem quotePlusChar_map_plusToSpace (c : Char) :
    (quotePlusChar c).map plusToSpace = quotePlusCharSp c := by
  unfold quotePlusChar quotePlusCharSp
  by_cases hs : isAlwaysSafeChar c
  · rw [if_pos hs, if_pos hs]
    simp [plusToSpace, safeChar_ne_plus hs]
  · rw [if_neg hs, if_neg hs]
    by_cases hsp : c = ' '
    · rw [if_pos hsp, if_pos hsp]
      simp [plusToSpace]
    · rw [if_neg hsp, if_neg hsp]
      rw [List.map_flatMap]
      exact flatMap_congr_mem (fun b hbm => by
        have hblt : b < 256 := utf8EncodeChar_bytes_lt c b hbm
        have hd1 := hexUpperDigit_spec (b / 16) (by omega)
        have hd2 := hexUpperDigit_spec (b % 16) (by omega)
        simp [hexUpperByte, plusToSpace, hd1.2.2.2.2, hd2.2.2.2.2,
          show ¬('%' : Char) = '+' by decide])

theorem quotePlusCharSp_ascii (c : Char) : ∀ x ∈ quotePlusCharSp c, isAsciiChar x = true := by
  unfold quotePlusCharSp
  by_cases hs : isAlwaysSafeChar c
  · rw [if_pos hs]
    intro x hx
    simp only [List.mem_singleton] at hx
    subst hx
    simp [isAsciiChar, safeChar_ascii hs]
  · rw [if_neg hs]
    by_cases hsp : c = ' '
    · rw [if_pos hsp]
      intro x hx
      simp only [List.mem_singleton] at hx
      subst hx
      decide
    · rw [if_neg hsp]
      intro x hx
      simp only [List.mem_flatMap] at hx
      obtain ⟨b, hbm, hxm⟩ := hx
      have hblt : b < 256 := utf8EncodeChar_bytes_lt c b hbm
      have hd1 := hexUpperDigit_spec (b / 16) (by omega)
      have hd2 := hexUpperDigit_spec (b % 16) (by omega)
      simp only [hexUpperByte, List.mem_cons, List.mem_singleton] at hxm
      rcases hxm with rfl | rfl | rfl | h
      · decide
      · simp [isAsciiChar, hd1.2.2.1]
      · simp [isAsciiChar, hd2.2.2.1]
      · simp at h

theorem pctDecode_flatMap_quotePlusCharSp (s : List Char) :
    pctDecode (s.flatMap quotePlusCharSp) = s.flatMap utf8EncodeChar := by
  induction s with
  | nil => rfl
  | cons c cs ih =>
    rw [List.flatMap_cons, List.flatMap_cons]
    by_cases hs : isAlwaysSafeChar c
    · have hc : quotePlusCharSp c = [c] := by unfold quotePlusCharSp; rw [if_pos hs]
      rw [hc]
      simp only [List.cons_append, List.nil_append]
      rw [pctDecode_cons_of_ne (safeChar_ne_pct hs), ih,
        utf8EncodeChar_ascii (safeChar_ascii hs)]
      simp
    · by_cases hsp : c = ' '
      · have hc : quotePlusCharSp c = [' '] := by
          unfold quotePlusCharSp; rw [if_neg hs, if_pos hsp]
        subst hsp
        rw [hc]
        simp only [List.cons_append, List.nil_append]
        rw [pctDecode_cons_of_ne (by decide), ih, utf8EncodeChar_ascii (by decide)]
        simp
      · have hc : quotePlusCharSp c = (utf8EncodeChar c).flatMap (fun b => '%' :: hexUpperByte b) := by
          unfold quotePlusCharSp; rw [if_neg hs, if_neg hsp]
        rw [hc, pctDecode_pctBytes _ (utf8EncodeChar_bytes_lt c), ih]

theorem takeWhile_all {α : Type} {p : α → Bool} {l : List α} (h : ∀ a ∈ l, p a) :
    l.takeWhile p = l ∧ l.dropWhile p = [] := by
  induction l with
  | nil => simp
  | cons x xs ih =>
    have hx : p x := h x (by simp)
    obtain ⟨h1, h2⟩ := ih (fun a ha => h a (by simp [ha]))
    rw [List.takeWhile_cons, List.dropWhile_cons]
    simp [hx, h1, h2]

theorem pyUnquote_all_ascii {l : List Char} (h : ∀ c ∈ l, isAsciiChar c = true) :
    pyUnquote l = utf8DecodeReplace (pctDecode l) := by
  cases l with
  | nil => rfl
  | cons c cs =>
    unfold pyUnquote
    simp only [List.length_cons]
    rw [pyUnquoteLoop]
    rw [if_pos (h c (by simp))]
    obtain ⟨h1, h2⟩ := takeWhile_all h
    rw [h1, h2]
    have : pyUnquoteLoop cs.length [] = [] := by
      cases cs.length <;> rfl
    rw [this, List.append_nil]

/-- The quote/unquote round trip used by `urlencode` / `parse_qsl`:
`unquote_plus (quote_plus s) = s` for every string `s`. -/
theorem unquote_plus_quote_plus (s : List Char) : unquote_plus (quote_plus s) = s := by
  unfold unquote_plus quote_plus
  rw [List.map_flatMap]
  have hmap : (s.flatMap fun c => (quotePlusChar c).map plusToSpace) =
      s.flatMap quotePlusCharSp := by
    exact flatMap_congr_mem (fun c _ => quotePlusChar_map_plusToSpace c)
  rw [hmap]
  rw [pyUnquote_all_ascii (fun c hc => by
    simp only [List.mem_flatMap] at hc
    obtain ⟨x, hxm, hcm⟩ := hc
    exact quotePlusCharSp_ascii x c hcm)]
  rw [pctDecode_flatMap_quotePlusCharSp, utf8DecodeReplace_flatMap_encode]

/-! ## Query strings: `parse_qsl`, `parse_qs`, `urlencode` (CPython `urllib.parse`) -/

/-- One `name=value` piece of `parse_qsl(qs, keep_blank_values=True)`: empty pieces
are skipped; without `=` the whole piece is the name and the value is empty
(kept, since blank values are kept); both halves get `+`-to-space and unquote. -/
def qslSplitPair (p : List Char) : Option (List Char × List Char) → List (List Char × List Char)
  | some (n, v) => [(unquote_plus n, unquote_plus v)]
  | none => [(unquote_plus p, unquote_plus [])]

def qslPiece (p : List Char) : List (List Char × List Char) :=
  if p = [] then [] else qslSplitPair p (splitFirst '=' p)

/-- `urllib.parse.parse_qsl(qs, keep_blank_values=True)`. -/
def parse_qsl (qs : List Char) : List (List Char × List Char) :=
  (splitSep '&' qs).flatMap qslPiece

/-- Insert one parsed pair into the `parse_qs` dictionary: append to the value list
of an existing key (keeping its position), else add a new key at the end. -/
def addQsPair (d : List (List Char × List (List Char))) (k v : List Char) :
    List (List Char × List (List Char)) :=
  match d with
  | [] => [(k, [v])]
  | (k', vs) :: rest => if k' = k then (k', vs ++ [v]) :: rest else (k', vs) :: addQsPair rest k v

/-- `urllib.parse.parse_qs(qs, keep_blank_values=True)` as an insertion-ordered
association list. -/
def parse_qs (qs : List Char) : List (List Char × List (List Char)) :=
  (parse_qsl qs).foldl (fun d p => addQsPair d p.1 p.2) []

/-- Python dict `d[key] = value`: replace in place if the key exists, else append. -/
def dictSet (d : List (List Char × List (List Char))) (k : List Char)
    (vs : List (List Char)) : List (List Char × List (List Char)) :=
  match d with
  | [] => [(k, vs)]
  | (k', vs') :: rest => if k' = k then (k', vs) :: rest else (k', vs') :: dictSet rest k vs

/-- Python dict `d.get(key)`. -/
def dictGet (d : List (List Char × List (List Char))) (k : List Char) :
    Option (List (List Char)) :=
  match d with
  | [] => none
  | (k', vs) :: rest => if k' = k then some vs else dictGet rest k

/-- `urllib.parse.urlencode(query, doseq=True)` with the default `quote_via=quote_plus`:
one `key=value` piece per value, joined with `&`. -/
def urlencode (d : List (List Char × List (List Char))) : List Char :=
  List.intercalate ['&']
    (d.flatMap fun kv => kv.2.map (fun v => quote_plus kv.1 ++ '=' :: quote_plus v))

/-! ## Python `int()` and `str()` on integers (ASCII fragment) -/

/-- ASCII whitespace stripped by `int()` (CPython also strips non-ASCII space). -/
def isPySpaceChar (c : Char) : Bool := decide (c.toNat = 0x20 ∨ (9 ≤ c.toNat ∧ c.toNat ≤ 13))

def pyStrip (l : List Char) : List Char :=
  ((l.dropWhile isPySpaceChar).reverse.dropWhile isPySpaceChar).reverse

/-- Digit-run parser for `int()`: after the first digit, single underscores are
allowed between digits.  Fuel is the input length. -/
def pyIntDigitsLoop : Nat → List Char → Nat → Option Nat
  | _, [], acc => some acc
  | 0, _ :: _, _ => none
  | fuel+1, c :: rest, acc =>
    if c = '_' then
      match rest with
      | c2 :: rest2 =>
        if isAsciiDigitChar c2 then pyIntDigitsLoop fuel rest2 (acc * 10 + (c2.toNat - 0x30))
        else none
      | [] => none
    else if isAsciiDigitChar c then pyIntDigitsLoop fuel rest (acc * 10 + (c.toNat - 0x30))
    else none

def pyIntDigits (l : List Char) : Option Nat :=
  match l with
  | [] => none
  | c :: rest =>
    if isAsciiDigitChar c then pyIntDigitsLoop rest.length rest (c.toNat - 0x30) else none

/-- Python `int(s)` on its ASCII fragment: strip whitespace, one optional sign,
ASCII digits with single underscores between digits; `none` models `ValueError`.
(CPython additionally accepts non-ASCII decimal digits and Unicode whitespace,
which `List Char` inputs in this development never exercise.) -/
def pyIntSigned : List Char → Option Int
  | [] => none
  | c :: rest =>
    if c = '-' then (pyIntDigits rest).map (fun m => -(m : Int))
    else if c = '+' then (pyIntDigits rest).map (fun m => (m : Int))
    else (pyIntDigits (c :: rest)).map (fun m => (m : Int))

def pyInt? (s : List Char) : Option Int := pyIntSigned (pyStrip s)

def digitChar (n : Nat) : Char := Char.ofNat (0x30 + n)

def natToDigitsAux : Nat → Nat → List Char → List Char
  | 0, _, acc => acc
  | fuel+1, n, acc =>
    if n < 10 then digitChar n :: acc
    else natToDigitsAux fuel (n / 10) (digitChar (n % 10) :: acc)

/-- Decimal digits of a natural number, most significant first. -/
def natToDigits (n : Nat) : List Char := natToDigitsAux (n + 1) n []

/-- Python `str(i)` for an `int`. -/
def pyStrInt (n : Int) : List Char :=
  if n < 0 then '-' :: natToDigits n.natAbs else natToDigits n.toNat

/-! ### Lemmas: `int(str(n)) == n` -/

def pyDigitStep (a : Nat) (c : Char) : Nat := a * 10 + (c.toNat - 0x30)

theorem natToDigitsAux_acc : ∀ fuel n acc, n < fuel →
    natToDigitsAux fuel n acc = natToDigitsAux fuel n [] ++ acc := by
  intro fuel
  induction fuel with
  | zero => intro n acc h; omega
  | succ fuel ih =>
    intro n acc h
    by_cases h10 : n < 10
    · rw [natToDigitsAux, natToDigitsAux, if_pos h10, if_pos h10]
      simp
    · rw [natToDigitsAux, natToDigitsAux, if_neg h10, if_neg h10]
      have hlt : n / 10 < fuel := by omega
      rw [ih (n / 10) (digitChar (n % 10) :: acc) hlt, ih (n / 10) [digitChar (n % 10)] hlt]
      simp

theorem natToDigitsAux_fuel (n : Nat) : ∀ f₁ f₂, n < f₁ → n < f₂ →
    natToDigitsAux f₁ n [] = natToDigitsAux f₂ n [] := by
  induction n using Nat.strong_induction_on with
  | _ n ih =>
    intro f₁ f₂ h₁ h₂
    match f₁, f₂ with
    | g₁+1, g₂+1 =>
      by_cases h10 : n < 10
      · rw [natToDigitsAux, natToDigitsAux, if_pos h10, if_pos h10]
      · rw [natToDigitsAux, natToDigitsAux, if_neg h10, if_neg h10]
        have hq : n / 10 < n := Nat.div_lt_self (by omega) (by omega)
        rw [natToDigitsAux_acc g₁ (n / 10) _ (by omega),
          natToDigitsAux_acc g₂ (n / 10) _ (by omega),
          ih (n / 10) hq g₁ g₂ (by omega) (by omega)]

theorem natToDigits_lt10 {n : Nat} (h : n < 10) : natToDigits n = [digitChar n] := by
  unfold natToDigits
  rw [natToDigitsAux, if_pos h]

theorem natToDigits_ge10 {n : Nat} (h : 10 ≤ n) :
    natToDigits n = natToDigits (n / 10) ++ [digitChar (n % 10)] := by
  unfold natToDigits
  rw [natToDigitsAux, if_neg (by omega)]
  have hq : n / 10 < n := Nat.div_lt_self (by omega) (by omega)
  rw [natToDigitsAux_acc n (n / 10) _ (by omega),
    natToDigitsAux_fuel (n / 10) n (n / 10 + 1) (by omega) (by omega)]

theorem digitChar_digit : ∀ n, n < 10 →
    isAsciiDigitChar (digitChar n) = true ∧ (digitChar n).toNat = 0x30 + n := by
  decide

theorem natToDigits_all_digits (n : Nat) :
    natToDigits n ≠ [] ∧ ∀ c ∈ natToDigits n, isAsciiDigitChar c = true := by
  induction n using Nat.strong_induction_on with
  | _ n ih =>
    by_cases h10 : n < 10
    · rw [natToDigits_lt10 h10]
      refine ⟨by simp, ?_⟩
      intro c hc
      simp only [List.mem_singleton] at hc
      subst hc
      exact (digitChar_digit n h10).1
    · rw [natToDigits_ge10 (by omega)]
      have hq : n / 10 < n := Nat.div_lt_self (by omega) (by omega)
      obtain ⟨h1, h2⟩ := ih (n / 10) hq
      refine ⟨by simp, ?_⟩
      intro c hc
      rw [List.mem_append] at hc
      rcases hc with hc | hc
      · exact h2 c hc
      · simp only [List.mem_singleton] at hc
        subst hc
        exact (digitChar_digit _ (by omega)).1

theorem foldl_natToDigits (n : Nat) : ∀ acc,
    List.foldl pyDigitStep acc (natToDigits n) =
      acc * 10 ^ (natToDigits n).length + n := by
  induction n using Nat.strong_induction_on with
  | _ n ih =>
    intro acc
    by_cases h10 : n < 10
    · rw [natToDigits_lt10 h10]
      simp [pyDigitStep, (digitChar_digit n h10).2]
    · rw [natToDigits_ge10 (by omega)]
      have hq : n / 10 < n := Nat.div_lt_self (by omega) (by omega)
      rw [List.foldl_append, ih (n / 10) hq acc]
      simp only [List.foldl_cons, List.foldl_nil, List.length_append, List.length_singleton]
      rw [pyDigitStep, (digitChar_digit (n % 10) (show n % 10 < 10 by omega)).2]
      rw [pow_succ]
      ring_nf
      omega

theorem digitChar_ne_underscore {c : Char} (h : isAsciiDigitChar c = true) : ¬c = '_' := by
  simp only [isAsciiDigitChar, decide_eq_true_eq] at h
  rw [char_eq_iff_toNat]
  have : ('_' : Char).toNat = 0x5F := rfl
  omega

theorem pyIntDigitsLoop_digits : ∀ (l : List Char), (∀ c ∈ l, isAsciiDigitChar c = true) →
    ∀ fuel, l.length ≤ fuel → ∀ acc,
      pyIntDigitsLoop fuel l acc = some (List.foldl pyDigitStep acc l) := by
  intro l
  induction l with
  | nil =>
    intro _ fuel _ acc
    cases fuel <;> rfl
  | cons c rest ih =>
    intro h fuel hf acc
    have hc : isAsciiDigitChar c = true := h c (by simp)
    match fuel with
    | g+1 =>
      simp only [pyIntDigitsLoop]
      rw [if_neg (digitChar_ne_underscore hc), if_pos hc]
      rw [ih (fun x hx => h x (by simp [hx])) g (by simpa using hf)]
      rfl

theorem pyIntDigits_natToDigits (m : Nat) : pyIntDigits (natToDigits m) = some m := by
  obtain ⟨hne, hdig⟩ := natToDigits_all_digits m
  obtain ⟨c, rest, hcr⟩ : ∃ c rest, natToDigits m = c :: rest := by
    cases h : natToDigits m with
    | nil => exact absurd h hne
    | cons c rest => exact ⟨c, rest, rfl⟩
  rw [hcr]
  simp only [pyIntDigits]
  rw [if_pos (by rw [hcr] at hdig; exact hdig c (by simp))]
  rw [pyIntDigitsLoop_digits rest (fun x hx => by rw [hcr] at hdig; exact hdig x (by simp [hx]))
    rest.length le_rfl]
  have := foldl_natToDigits m 0
  rw [hcr] at this
  simp only [List.foldl_cons] at this
  rw [show pyDigitStep 0 c = c.toNat - 0x30 by unfold pyDigitStep; omega] at this
  rw [this]
  simp

theorem pyStrip_no_space {l : List Char} (h : ∀ c ∈ l, isPySpaceChar c = false) :
    pyStrip l = l := by
  unfold pyStrip
  have h1 : l.dropWhile isPySpaceChar = l := by
    cases l with
    | nil => rfl
    | cons c rest =>
      rw [List.dropWhile_cons, h c (by simp)]
      simp
  rw [h1]
  have h2 : l.reverse.dropWhile isPySpaceChar = l.reverse := by
    cases hr : l.reverse with
    | nil => rfl
    | cons c rest =>
      rw [List.dropWhile_cons, h c (by rw [← List.mem_reverse, hr]; simp)]
      simp
  rw [h2, List.reverse_reverse]

theorem digit_not_space {c : Char} (h : isAsciiDigitChar c = true) :
    isPySpaceChar c = false := by
  simp only [isAsciiDigitChar, decide_eq_true_eq] at h
  simp only [isPySpaceChar, decide_eq_false_iff_not]
  omega

/-- Round trip `int(str(n)) == n` for Python integers. -/
theorem pyInt_pyStrInt (n : Int) : pyInt? (pyStrInt n) = some n := by
  unfold pyStrInt
  by_cases hn : n < 0
  · rw [if_pos hn]
    obtain ⟨hne, hdig⟩ := natToDigits_all_digits n.natAbs
    have hstrip : pyStrip ('-' :: natToDigits n.natAbs) = '-' :: natToDigits n.natAbs := by
      apply pyStrip_no_space
      intro c hc
      rcases List.mem_cons.mp hc with rfl | hc
      · decide
      · exact digit_not_space (hdig c hc)
    unfold pyInt?
    rw [hstrip]
    simp only [pyIntSigned, if_true]
    rw [pyIntDigits_natToDigits]
    simp [Int.natCast_natAbs, abs_of_neg hn]
  · rw [if_neg hn]
    obtain ⟨hne, hdig⟩ := natToDigits_all_digits n.toNat
    have hstrip : pyStrip (natToDigits n.toNat) = natToDigits n.toNat :=
      pyStrip_no_space (fun c hc => digit_not_space (hdig c hc))
    obtain ⟨c, rest, hcr⟩ : ∃ c rest, natToDigits n.toNat = c :: rest := by
      cases h : natToDigits n.toNat with
      | nil => exact absurd h hne
      | cons c rest => exact ⟨c, rest, rfl⟩
    have hcd : isAsciiDigitChar c = true := by
      rw [hcr] at hdig
      exact hdig c (by simp)
    have hcn : ¬c = '-' := by
      simp only [isAsciiDigitChar, decide_eq_true_eq] at hcd
      rw [char_eq_iff_toNat]
      have : ('-' : Char).toNat = 0x2D := rfl
      omega
    have hcp : ¬c = '+' := by
      simp only [isAsciiDigitChar, decide_eq_true_eq] at hcd
      rw [char_eq_iff_toNat]
      have : ('+' : Char).toNat = 0x2B := rfl
      omega
    unfold pyInt?
    rw [hstrip, hcr]
    simp only [pyIntSigned]
    rw [if_neg hcn, if_neg hcp, ← hcr, pyIntDigits_natToDigits]
    simp [Int.toNat_of_nonneg (show (0:Int) ≤ n by omega)]

/-! ### Lemmas: `parse_qsl (urlencode d)` recovers the dictionary's pairs -/

/-- Characters that can appear in `quote_plus` output: printable ASCII, none of
the URL metacharacters `& = # ? : /`. -/
def isQuoteOutChar (x : Char) : Prop :=
  0x20 < x.toNat ∧ x.toNat < 128 ∧ x.toNat ≠ 0x26 ∧ x.toNat ≠ 0x3D ∧ x.toNat ≠ 0x23 ∧
    x.toNat ≠ 0x3F ∧ x.toNat ≠ 0x3A ∧ x.toNat ≠ 0x2F

theorem quotePlusChar_out {c x : Char} (hx : x ∈ quotePlusChar c) : isQuoteOutChar x := by
  unfold quotePlusChar at hx
  by_cases hs : isAlwaysSafeChar c
  · rw [if_pos hs] at hx
    simp only [List.mem_singleton] at hx
    subst hx
    have := isAlwaysSafeChar_toNat hs
    unfold isQuoteOutChar
    omega
  · rw [if_neg hs] at hx
    by_cases hsp : c = ' '
    · rw [if_pos hsp] at hx
      simp only [List.mem_singleton] at hx
      subst hx
      unfold isQuoteOutChar
      decide
    · rw [if_neg hsp] at hx
      simp only [List.mem_flatMap] at hx
      obtain ⟨b, hbm, hxm⟩ := hx
      have hblt : b < 256 := utf8EncodeChar_bytes_lt c b hbm
      have hd1 := hexUpperDigit_spec (b / 16) (by omega)
      have hd2 := hexUpperDigit_spec (b % 16) (by omega)
      simp only [hexUpperByte, List.mem_cons, List.mem_singleton] at hxm
      rcases hxm with rfl | rfl | rfl | hfalse
      · unfold isQuoteOutChar
        decide
      · unfold isQuoteOutChar
        have := hd1.2.2.2.2.2
        omega
      · unfold isQuoteOutChar
        have := hd2.2.2.2.2.2
        omega
      · simp at hfalse

theorem quote_plus_out {k : List Char} {x : Char} (hx : x ∈ quote_plus k) :
    isQuoteOutChar x := by
  unfold quote_plus at hx
  simp only [List.mem_flatMap] at hx
  obtain ⟨c, _, hxm⟩ := hx
  exact quotePlusChar_out hxm

theorem amp_not_mem_quote_plus (k : List Char) : '&' ∉ quote_plus k := by
  intro h
  have := (quote_plus_out h).2.2.1
  exact this rfl

theorem eq_not_mem_quote_plus (k : List Char) : '=' ∉ quote_plus k := by
  intro h
  have := (quote_plus_out h).2.2.2.1
  exact this rfl

/-- `parse_qsl` of one `key=value` piece produced by `urlencode`. -/
theorem qslPiece_encodedPair (k v : List Char) :
    qslPiece (quote_plus k ++ '=' :: quote_plus v) = [(k, v)] := by
  have hne : quote_plus k ++ '=' :: quote_plus v ≠ [] := by
    cases h : quote_plus k <;> simp [h]
  unfold qslPiece
  rw [if_neg hne, splitFirst_append_cons (eq_not_mem_quote_plus k)]
  simp only [qslSplitPair]
  rw [unquote_plus_quote_plus, unquote_plus_quote_plus]

theorem parse_qsl_urlencode (d : List (List Char × List (List Char))) :
    parse_qsl (urlencode d) = d.flatMap (fun kv => kv.2.map (fun v => (kv.1, v))) := by
  unfold parse_qsl urlencode
  cases hp : d.flatMap (fun kv => kv.2.map (fun v => quote_plus kv.1 ++ '=' :: quote_plus v)) with
  | nil =>
    have hlen : ∀ (dd : List (List Char × List (List Char))),
        (dd.flatMap (fun kv => kv.2.map (fun v => (kv.1, v)))).length =
          (dd.flatMap (fun kv => kv.2.map (fun v => quote_plus kv.1 ++ '=' :: quote_plus v))).length := by
      intro dd
      induction dd with
      | nil => rfl
      | cons kv rest ih => simp [ih]
    have hlen := hlen d
    rw [hp] at hlen
    simp only [List.length_nil] at hlen
    rw [List.length_eq_zero.mp hlen]
    simp [List.intercalate, splitSep, qslPiece]
  | cons p ps =>
    have hfree : ∀ piece ∈ d.flatMap
        (fun kv => kv.2.map (fun v => quote_plus kv.1 ++ '=' :: quote_plus v)), '&' ∉ piece := by
      intro piece hm
      simp only [List.mem_flatMap, List.mem_map] at hm
      obtain ⟨kv, _, v, _, rfl⟩ := hm
      intro hamp
      rw [List.mem_append] at hamp
      rcases hamp with h | h
      · exact amp_not_mem_quote_plus kv.1 h
      · rcases List.mem_cons.mp h with h | h
        · cases h
        · exact amp_not_mem_quote_plus v h
    rw [hp] at hfree
    rw [splitSep_intercalate _ hfree (by simp), ← hp]
    rw [List.flatMap_assoc]
    congr 1
    funext kv
    rw [List.flatMap_map]
    simp only [qslPiece_encodedPair]
    induction kv.2 with
    | nil => rfl
    | cons v vs ih => simp [ih]

/-! ### Lemmas about the `parse_qs` dictionary -/

def qsKeys (d : List (List Char × List (List Char))) : List (List Char) := d.map Prod.fst

theorem keys_cons_mem (k k' : List Char) (rest : List (List Char)) (hk : ¬k' = k) :
    (k ∈ k' :: rest) ↔ (k ∈ rest) := by
  simp only [List.mem_cons]
  constructor
  · rintro (h | h)
    · exact absurd h.symm hk
    · exact h
  · intro h; exact Or.inr h

theorem dictSet_keys (d : List (List Char × List (List Char))) (k : List Char)
    (vs : List (List Char)) :
    qsKeys (dictSet d k vs) = if k ∈ qsKeys d then qsKeys d else qsKeys d ++ [k] := by
  induction d with
  | nil => simp [dictSet, qsKeys]
  | cons kv rest ih =>
    obtain ⟨k', vs'⟩ := kv
    by_cases hk : k' = k
    · subst hk
      simp [dictSet, qsKeys]
    · simp only [dictSet]
      rw [if_neg hk]
      simp only [qsKeys, List.map_cons] at ih ⊢
      by_cases hm : k ∈ List.map Prod.fst rest
      · rw [ih, if_pos hm, if_pos (List.mem_cons.mpr (Or.inr hm))]
      · rw [ih, if_neg hm, if_neg ((keys_cons_mem k k' _ hk).not.mpr hm)]
        simp

theorem addQsPair_keys (d : List (List Char × List (List Char))) (k v : List Char) :
    qsKeys (addQsPair d k v) = if k ∈ qsKeys d then qsKeys d else qsKeys d ++ [k] := by
  induction d with
  | nil => simp [addQsPair, qsKeys]
  | cons kv rest ih =>
    obtain ⟨k', vs'⟩ := kv
    by_cases hk : k' = k
    · subst hk
      simp [addQsPair, qsKeys]
    · simp only [addQsPair]
      rw [if_neg hk]
      simp only [qsKeys, List.map_cons] at ih ⊢
      by_cases hm : k ∈ List.map Prod.fst rest
      · rw [ih, if_pos hm, if_pos (List.mem_cons.mpr (Or.inr hm))]
      · rw [ih, if_neg hm, if_neg ((keys_cons_mem k k' _ hk).not.mpr hm)]
        simp

theorem dictGet_dictSet_self (d : List (List Char × List (List Char))) (k : List Char)
    (vs : List (List Char)) : dictGet (dictSet d k vs) k = some vs := by
  induction d with
  | nil => simp [dictSet, dictGet]
  | cons kv rest ih =>
    obtain ⟨k', vs'⟩ := kv
    by_cases hk : k' = k
    · subst hk
      simp [dictSet, dictGet]
    · simp only [dictSet]
      rw [if_neg hk]
      simp only [dictGet]
      rw [if_neg hk, ih]

theorem filter_pairs_not_mem {d : List (List Char × List (List Char))} {k : List Char}
    (h : k ∉ qsKeys d) :
    (d.flatMap (fun kv => kv.2.map (fun v => (kv.1, v)))).filter
      (fun p => decide (p.1 = k)) = [] := by
  induction d with
  | nil => rfl
  | cons kv rest ih =>
    simp only [qsKeys, List.map_cons, List.mem_cons, not_or] at h
    rw [List.flatMap_cons, List.filter_append, ih (by simp only [qsKeys]; exact h.2)]
    rw [List.append_nil]
    apply List.filter_eq_nil_iff.mpr
    intro p hp
    simp only [List.mem_map] at hp
    obtain ⟨v, _, rfl⟩ := hp
    simp only [decide_eq_true_eq]
    exact fun he => h.1 (he ▸ rfl)

theorem filter_pairs_dictSet {d : List (List Char × List (List Char))} {k : List Char}
    {vs : List (List Char)} (h : (qsKeys d).Nodup) :
    ((dictSet d k vs).flatMap (fun kv => kv.2.map (fun v => (kv.1, v)))).filter
      (fun p => decide (p.1 = k)) = vs.map (fun v => (k, v)) := by
  induction d with
  | nil =>
    simp only [dictSet, List.flatMap_cons, List.flatMap_nil, List.append_nil]
    apply List.filter_eq_self.mpr
    intro p hp
    simp only [List.mem_map] at hp
    obtain ⟨v, _, rfl⟩ := hp
    simp
  | cons kv rest ih =>
    obtain ⟨k', vs'⟩ := kv
    simp only [qsKeys, List.map_cons, List.nodup_cons] at h
    by_cases hk : k' = k
    · subst hk
      simp only [dictSet, eq_self_iff_true, if_true, List.flatMap_cons, List.filter_append]
      rw [filter_pairs_not_mem (by simp only [qsKeys]; exact h.1), List.append_nil]
      apply List.filter_eq_self.mpr
      intro p hp
      simp only [List.mem_map] at hp
      obtain ⟨v, _, rfl⟩ := hp
      simp
    · simp only [dictSet]
      rw [if_neg hk]
      rw [List.flatMap_cons, List.filter_append, ih (by simp only [qsKeys]; exact h.2)]
      have hempty : (List.map (fun v => (k', v)) vs').filter (fun p => decide (p.1 = k)) = [] := by
        apply List.filter_eq_nil_iff.mpr
        intro p hp
        simp only [List.mem_map] at hp
        obtain ⟨v, _, rfl⟩ := hp
        simp only [decide_eq_true_eq]
        exact fun he => hk he
      rw [hempty, List.nil_append]

def optAppend (o : Option (List (List Char))) (vs : List (List Char)) :
    Option (List (List Char)) :=
  match o, vs with
  | none, [] => none
  | none, vs => some vs
  | some vs0, vs => some (vs0 ++ vs)

theorem optAppend_nil (o : Option (List (List Char))) : optAppend o [] = o := by
  cases o <;> simp [optAppend]

theorem dictGet_addQsPair (d : List (List Char × List (List Char))) (k' : List Char)
    (v k : List Char) :
    dictGet (addQsPair d k' v) k =
      if k' = k then some ((dictGet d k).getD [] ++ [v]) else dictGet d k := by
  induction d with
  | nil =>
    by_cases hk : k' = k
    · subst hk
      simp [addQsPair, dictGet]
    · simp [addQsPair, dictGet, hk]
  | cons kv rest ih =>
    obtain ⟨k₀, vs₀⟩ := kv
    by_cases h₀ : k₀ = k'
    · subst h₀
      simp only [addQsPair, eq_self_iff_true, if_true]
      by_cases hk : k₀ = k
      · subst hk
        simp [dictGet]
      · simp [dictGet, hk]
    · simp only [addQsPair]
      rw [if_neg h₀]
      by_cases hk : k₀ = k
      · subst hk
        have hne : ¬k' = k₀ := fun he => h₀ he.symm
        simp [dictGet, hne]
      · simp only [dictGet]
        rw [if_neg hk, if_neg hk, ih]

theorem foldl_addQsPair_get : ∀ (pairs : List (List Char × List Char))
    (d : List (List Char × List (List Char))) (k : List Char),
    dictGet (pairs.foldl (fun d p => addQsPair d p.1 p.2) d) k =
      optAppend (dictGet d k) ((pairs.filter (fun p => decide (p.1 = k))).map Prod.snd) := by
  intro pairs
  induction pairs with
  | nil =>
    intro d k
    simp [optAppend_nil]
  | cons p rest ih =>
    intro d k
    rw [List.foldl_cons, ih, dictGet_addQsPair]
    by_cases hk : p.1 = k
    · rw [if_pos hk, List.filter_cons_of_pos (by simpa using hk)]
      rw [List.map_cons]
      cases hd : dictGet d k with
      | none => simp [optAppend]
      | some vs0 => simp [optAppend]
    · rw [if_neg hk, List.filter_cons_of_neg (by simpa using hk)]

/-- `parse_qs` produces distinct keys. -/
theorem parse_qs_keys_nodup (q : List Char) : (qsKeys (parse_qs q)).Nodup := by
  unfold parse_qs
  have hinv : ∀ (pairs : List (List Char × List Char)) (d : List (List Char × List (List Char))),
      (qsKeys d).Nodup →
      (qsKeys (pairs.foldl (fun d p => addQsPair d p.1 p.2) d)).Nodup := by
    intro pairs
    induction pairs with
    | nil => intro d h; exact h
    | cons p rest ih =>
      intro d h
      rw [List.foldl_cons]
      apply ih
      rw [addQsPair_keys]
      by_cases hm : p.1 ∈ qsKeys d
      · rw [if_pos hm]; exact h
      · rw [if_neg hm]
        simp only [List.nodup_append, List.nodup_cons, List.nodup_nil]
        refine ⟨h, by simp, ?_⟩
        simp only [List.disjoint_singleton]
        intro hx
        exact hm hx
  exact hinv (parse_qsl q) [] (by simp [qsKeys])

/-! ## `urlsplit` / `urlunsplit` (CPython `urllib.parse`)

CPython's `urlsplit` first strips leading C0-control-or-space characters, removes
every tab, CR and LF, then detects `scheme:`, an authority after `//` (raising
`ValueError` for a bracket-unbalanced IPv6 authority — modeled as `none`), the
fragment after the first `#`, and the query after the first `?`. -/

structure UrlSplitResult where
  scheme : List Char
  netloc : List Char
  path : List Char
  query : List Char
  fragment : List Char
  deriving Repr, DecidableEq

def isC0OrSpace (c : Char) : Bool := decide (c.toNat ≤ 0x20)

/-- `_UNSAFE_URL_BYTES_TO_REMOVE = ["\t", "\r", "\n"]`. -/
def isUnsafeUrlChar (c : Char) : Bool := decide (c.toNat = 9 ∨ c.toNat = 10 ∨ c.toNat = 13)

def cleanUrl (l : List Char) : List Char :=
  (l.dropWhile isC0OrSpace).filter (fun c => !isUnsafeUrlChar c)

/-- Scheme detection: a first `:` at position `i > 0`, an ASCII-alphabetic first
character and `scheme_chars` up to `i`; the scheme is lower-cased. -/
def splitScheme (url : List Char) : List Char × List Char :=
  match splitFirst ':' url with
  | some (pre, rest) =>
    match pre with
    | [] => ([], url)
    | c :: cs =>
      if isAsciiAlphaChar c && cs.all isSchemeChar then ((c :: cs).map lowerAsciiChar, rest)
      else ([], url)
  | none => ([], url)

def isNetlocDelim (c : Char) : Bool := c = '/' || c = '?' || c = '#'

/-- `_splitnetloc(url, 2)`: authority up to the first of `/?#` after the `//`. -/
def splitNetloc (url : List Char) : List Char × List Char :=
  ((url.drop 2).takeWhile (fun c => !isNetlocDelim c),
    (url.drop 2).dropWhile (fun c => !isNetlocDelim c))

def bracketOk (nl : List Char) : Bool :=
  !((nl.contains '[' && !nl.contains ']') || (nl.contains ']' && !nl.contains '['))

/-- `if ch in url: url, x = url.split(ch, 1)`. -/
def cutFirst (c : Char) (l : List Char) : List Char × List Char :=
  match splitFirst c l with
  | some (a, b) => (a, b)
  | none => (l, [])

def urlsplitAfterNetloc (scheme : List Char) (np : List Char × List Char) :
    Option UrlSplitResult :=
  if bracketOk np.1 then
    some ⟨scheme, np.1, (cutFirst '?' (cutFirst '#' np.2).1).1,
      (cutFirst '?' (cutFirst '#' np.2).1).2, (cutFirst '#' np.2).2⟩
  else none

def urlsplitAfterScheme (sp : List Char × List Char) : Option UrlSplitResult :=
  urlsplitAfterNetloc sp.1
    (if sp.2.take 2 = ['/', '/'] then splitNetloc sp.2 else ([], sp.2))

def urlsplitCore (url0 : List Char) : Option UrlSplitResult :=
  urlsplitAfterScheme (splitScheme (cleanUrl url0))

/-- CPython `urlunsplit`. -/
def urlunsplitCore (r : UrlSplitResult) : List Char :=
  let url := r.path
  let url :=
    if r.netloc ≠ [] ∨ url.take 2 = ['/', '/'] then
      '/' :: '/' :: (r.netloc ++ (if url ≠ [] ∧ url.head? ≠ some '/' then '/' :: url else url))
    else url
  let url := if r.scheme ≠ [] then r.scheme ++ ':' :: url else url
  let url := if r.query ≠ [] then url ++ '?' :: r.query else url
  if r.fragment ≠ [] then url ++ '#' :: r.fragment else url

/-! ### List and character helpers for the `urlsplit` round trip -/

theorem splitFirst_none_not_mem {c : Char} {l : List Char} (h : splitFirst c l = none) :
    c ∉ l := by
  induction l with
  | nil => simp
  | cons x xs ih =>
    simp only [splitFirst] at h
    by_cases hx : x = c
    · rw [if_pos hx] at h; cases h
    · rw [if_neg hx] at h
      match hs : splitFirst c xs with
      | some p => rw [hs] at h; cases h
      | none =>
        simp only [List.mem_cons, not_or]
        exact ⟨fun he => hx he.symm, ih hs⟩

theorem mem_takeWhile {p : Char → Bool} {l : List Char} {x : Char}
    (h : x ∈ l.takeWhile p) : p x = true ∧ x ∈ l := by
  induction l with
  | nil => simp at h
  | cons c cs ih =>
    rw [List.takeWhile_cons] at h
    by_cases hc : p c
    · rw [if_pos hc] at h
      rcases List.mem_cons.mp h with rfl | h
      · exact ⟨hc, by simp⟩
      · obtain ⟨h1, h2⟩ := ih h
        exact ⟨h1, by simp [h2]⟩
    · rw [if_neg hc] at h
      simp at h

theorem mem_dropWhile {p : Char → Bool} {l : List Char} {x : Char}
    (h : x ∈ l.dropWhile p) : x ∈ l := by
  induction l with
  | nil => simp at h
  | cons c cs ih =>
    rw [List.dropWhile_cons] at h
    by_cases hc : p c
    · rw [if_pos hc] at h
      simp [ih h]
    · rw [if_neg hc] at h
      exact h

theorem dropWhile_head {p : Char → Bool} (l : List Char) :
    match l.dropWhile p with
    | [] => True
    | c :: _ => p c = false := by
  induction l with
  | nil => simp
  | cons c cs ih =>
    rw [List.dropWhile_cons]
    by_cases hc : p c
    · rw [if_pos hc]
      exact ih
    · rw [if_neg hc]
      simpa using hc

theorem takeWhile_append_all {p : Char → Bool} {l : List Char} (m : List Char)
    (h : ∀ c ∈ l, p c = true) : (l ++ m).takeWhile p = l ++ m.takeWhile p := by
  induction l with
  | nil => simp
  | cons c cs ih =>
    rw [List.cons_append, List.takeWhile_cons, if_pos (h c (by simp)),
      ih (fun x hx => h x (by simp [hx]))]
    rfl

theorem dropWhile_append_all {p : Char → Bool} {l : List Char} (m : List Char)
    (h : ∀ c ∈ l, p c = true) : (l ++ m).dropWhile p = m.dropWhile p := by
  induction l with
  | nil => simp
  | cons c cs ih =>
    rw [List.cons_append, List.dropWhile_cons, if_pos (h c (by simp))]
    exact ih (fun x hx => h x (by simp [hx]))

theorem cutFirst_append_cons {c : Char} {a : List Char} (b : List Char) (h : c ∉ a) :
    cutFirst c (a ++ c :: b) = (a, b) := by
  unfold cutFirst
  rw [splitFirst_append_cons h]

theorem cutFirst_not_mem {c : Char} {l : List Char} (h : c ∉ l) :
    cutFirst c l = (l, []) := by
  unfold cutFirst
  rw [splitFirst_eq_none h]

/-- The two halves of `cutFirst` decompose the input. -/
theorem cutFirst_spec {c : Char} {l a b : List Char} (h : cutFirst c l = (a, b)) :
    (l = a ++ c :: b ∧ c ∉ a) ∨ (a = l ∧ b = [] ∧ c ∉ l) := by
  unfold cutFirst at h
  match hs : splitFirst c l with
  | some (a', b') =>
    rw [hs] at h
    obtain ⟨rfl, rfl⟩ := Prod.mk.injEq a' b' a b ▸ h
    exact Or.inl (splitFirst_eq_some hs)
  | none =>
    rw [hs] at h
    obtain ⟨rfl, rfl⟩ := Prod.mk.injEq l [] a b ▸ h
    exact Or.inr ⟨rfl, rfl, splitFirst_none_not_mem hs⟩

theorem mem_cleanUrl_not_unsafe {u : List Char} {x : Char} (h : x ∈ cleanUrl u) :
    isUnsafeUrlChar x = false := by
  unfold cleanUrl at h
  have := List.mem_filter.mp h
  simpa using this.2

theorem cleanUrl_head (u : List Char) :
    match cleanUrl u with
    | [] => True
    | c :: _ => 0x20 < c.toNat := by
  unfold cleanUrl
  have hd := dropWhile_head (p := isC0OrSpace) u
  cases hdw : u.dropWhile isC0OrSpace with
  | nil => simp
  | cons c cs =>
    rw [hdw] at hd
    simp only [isC0OrSpace, decide_eq_false_iff_not, not_le] at hd
    rw [List.filter_cons_of_pos (by simp [isUnsafeUrlChar]; omega)]
    simpa using hd

theorem cleanUrl_noop {l : List Char}
    (h1 : match l with | [] => True | c :: _ => 0x20 < c.toNat)
    (h2 : ∀ c ∈ l, isUnsafeUrlChar c = false) : cleanUrl l = l := by
  unfold cleanUrl
  cases l with
  | nil => rfl
  | cons c cs =>
    rw [List.dropWhile_cons, if_neg (by simp [isC0OrSpace]; omega)]
    apply List.filter_eq_self.mpr
    intro x hx
    simp [h2 x hx]

theorem char_ofNat_toNat_small : ∀ n, n < 0x80 → (Char.ofNat n).toNat = n := by
  decide

/-- Numeric characterisation of `scheme_chars` membership. -/
theorem isSchemeChar_toNat {c : Char} (h : isSchemeChar c = true) :
    (0x41 ≤ c.toNat ∧ c.toNat ≤ 0x5A) ∨ (0x61 ≤ c.toNat ∧ c.toNat ≤ 0x7A) ∨
      (0x30 ≤ c.toNat ∧ c.toNat ≤ 0x39) ∨ c.toNat = 0x2B ∨ c.toNat = 0x2D ∨
      c.toNat = 0x2E := by
  have h2b : ('+' : Char).toNat = 0x2B := rfl
  have h2d : ('-' : Char).toNat = 0x2D := rfl
  have h2e : ('.' : Char).toNat = 0x2E := rfl
  unfold isSchemeChar isAsciiAlphaChar isAsciiUpperChar isAsciiLowerChar isAsciiDigitChar at h
  simp only [Bool.or_eq_true, decide_eq_true_eq, char_eq_iff_toNat, h2b, h2d, h2e] at h
  tauto

def lowerSchemeCharP (c : Char) : Prop :=
  (0x61 ≤ c.toNat ∧ c.toNat ≤ 0x7A) ∨ (0x30 ≤ c.toNat ∧ c.toNat ≤ 0x39) ∨
    c.toNat = 0x2B ∨ c.toNat = 0x2D ∨ c.toNat = 0x2E

theorem lowerAsciiChar_toNat {c : Char} (h : c.toNat < 0x80) :
    (lowerAsciiChar c).toNat =
      if 0x41 ≤ c.toNat ∧ c.toNat ≤ 0x5A then c.toNat + 32 else c.toNat := by
  unfold lowerAsciiChar isAsciiUpperChar
  by_cases hu : 0x41 ≤ c.toNat ∧ c.toNat ≤ 0x5A
  · rw [if_pos (by simpa using hu), if_pos hu]
    exact char_ofNat_toNat_small (c.toNat + 32) (by omega)
  · rw [if_neg (by simpa using hu), if_neg hu]

theorem lowerAsciiChar_scheme {c : Char} (h : isSchemeChar c = true) :
    lowerSchemeCharP (lowerAsciiChar c) := by
  have hn := isSchemeChar_toNat h
  have hlt : c.toNat < 0x80 := by omega
  have := lowerAsciiChar_toNat hlt
  unfold lowerSchemeCharP
  by_cases hu : 0x41 ≤ c.toNat ∧ c.toNat ≤ 0x5A
  · rw [if_pos hu] at this
    omega
  · rw [if_neg hu] at this
    omega

theorem lowerAsciiChar_alpha {c : Char} (h : isAsciiAlphaChar c = true) :
    0x61 ≤ (lowerAsciiChar c).toNat ∧ (lowerAsciiChar c).toNat ≤ 0x7A := by
  unfold isAsciiAlphaChar isAsciiUpperChar isAsciiLowerChar at h
  simp only [Bool.or_eq_true, decide_eq_true_eq] at h
  have hlt : c.toNat < 0x80 := by omega
  have := lowerAsciiChar_toNat hlt
  by_cases hu : 0x41 ≤ c.toNat ∧ c.toNat ≤ 0x5A
  · rw [if_pos hu] at this
    omega
  · rw [if_neg hu] at this
    omega

theorem colon_toNat : (':' : Char).toNat = 0x3A := rfl

theorem slash_toNat : ('/' : Char).toNat = 0x2F := rfl

theorem qmark_toNat : ('?' : Char).toNat = 0x3F := rfl

theorem hash_toNat : ('#' : Char).toNat = 0x23 := rfl

/-- The failure condition of scheme detection, as seen at the first colon. -/
def schemeTestFail (a : List Char) : Prop :=
  a = [] ∨ ∃ c cs, a = c :: cs ∧ (isAsciiAlphaChar c && cs.all isSchemeChar) = false

theorem map_id_of_fixed {f : Char → Char} : ∀ {l : List Char},
    (∀ x ∈ l, f x = x) → l.map f = l := by
  intro l h
  induction l with
  | nil => rfl
  | cons x xs ih =>
    rw [List.map_cons, h x (by simp), ih (fun y hy => h y (by simp [hy]))]

theorem splitScheme_cases (u : List Char) :
    (splitScheme u = ([], u) ∧
      ∀ a b, splitFirst ':' u = some (a, b) → schemeTestFail a) ∨
    ∃ c cs rest, splitFirst ':' u = some (c :: cs, rest) ∧
      (isAsciiAlphaChar c && cs.all isSchemeChar) = true ∧
      splitScheme u = ((c :: cs).map lowerAsciiChar, rest) := by
  unfold splitScheme
  rcases hs : splitFirst ':' u with - | ⟨pre, rest⟩
  · left
    refine ⟨rfl, ?_⟩
    intro a b hab
    cases hab
  · cases pre with
    | nil =>
      left
      refine ⟨rfl, ?_⟩
      intro a b hab
      obtain ⟨h1, _⟩ := Prod.mk.injEq .. ▸ Option.some.inj hab
      exact Or.inl h1.symm
    | cons c cs =>
      by_cases ht : (isAsciiAlphaChar c && cs.all isSchemeChar) = true
      · right
        refine ⟨c, cs, rest, rfl, ht, ?_⟩
        simp [ht]
      · left
        constructor
        · simp only [Bool.not_eq_true] at ht
          simp [ht]
        · intro a b hab
          obtain ⟨h1, _⟩ := Prod.mk.injEq .. ▸ Option.some.inj hab
          subst h1
          exact Or.inr ⟨c, cs, rfl, by simpa using ht⟩

theorem lowerSchemeCharP_isSchemeChar {c : Char} (h : lowerSchemeCharP c) :
    isSchemeChar c = true := by
  unfold lowerSchemeCharP at h
  unfold isSchemeChar isAsciiAlphaChar isAsciiUpperChar isAsciiLowerChar isAsciiDigitChar
  simp only [Bool.or_eq_true, decide_eq_true_eq, char_eq_iff_toNat,
    show ('+' : Char).toNat = 0x2B from rfl, show ('-' : Char).toNat = 0x2D from rfl,
    show ('.' : Char).toNat = 0x2E from rfl]
  omega

theorem lowerSchemeCharP_fixed {c : Char} (h : lowerSchemeCharP c) :
    lowerAsciiChar c = c := by
  unfold lowerSchemeCharP at h
  unfold lowerAsciiChar isAsciiUpperChar
  rw [if_neg (by simp only [decide_eq_true_eq]; omega)]

theorem splitScheme_mk {s : List Char} (t : List Char) (hs : ∀ c ∈ s, lowerSchemeCharP c)
    (hh : match s with | [] => False | c :: _ => 0x61 ≤ c.toNat ∧ c.toNat ≤ 0x7A) :
    splitScheme (s ++ ':' :: t) = (s, t) := by
  cases s with
  | nil => cases hh
  | cons c cs =>
    have hfree : ':' ∉ c :: cs := by
      intro hm
      have := hs ':' hm
      unfold lowerSchemeCharP at this
      rw [colon_toNat] at this
      omega
    have hsf : splitFirst ':' ((c :: cs) ++ ':' :: t) = some (c :: cs, t) :=
      splitFirst_append_cons hfree
    have halpha : isAsciiAlphaChar c = true := by
      unfold isAsciiAlphaChar isAsciiUpperChar isAsciiLowerChar
      simp only [Bool.or_eq_true, decide_eq_true_eq]
      omega
    have hall : cs.all isSchemeChar = true := by
      rw [List.all_eq_true]
      intro x hx
      exact lowerSchemeCharP_isSchemeChar (hs x (by simp [hx]))
    rcases splitScheme_cases ((c :: cs) ++ ':' :: t) with ⟨_, hfail⟩ | ⟨c', cs', rest', hsf', ht', heq⟩
    · rcases hfail _ _ hsf with h1 | ⟨c2, cs2, h2, h3⟩
      · cases h1
      · obtain ⟨rfl, rfl⟩ : c2 = c ∧ cs2 = cs := by
          have := List.cons.injEq .. ▸ h2
          exact ⟨this.1.symm, this.2.symm⟩
        rw [halpha, hall] at h3
        simp at h3
    · rw [hsf] at hsf'
      obtain ⟨h1, h2⟩ := Prod.mk.injEq .. ▸ Option.some.inj hsf'
      obtain ⟨rfl, rfl⟩ : c' = c ∧ cs' = cs := by
        have := List.cons.injEq .. ▸ h1.symm
        exact ⟨this.1, this.2⟩
      subst h2
      rw [heq, map_id_of_fixed (fun x hx => lowerSchemeCharP_fixed (hs x hx))]

theorem splitScheme_none_of {u : List Char}
    (h : ∀ a b, splitFirst ':' u = some (a, b) → schemeTestFail a) :
    splitScheme u = ([], u) := by
  rcases splitScheme_cases u with ⟨heq, _⟩ | ⟨c, cs, rest, hsf, ht, _⟩
  · exact heq
  · rcases h _ _ hsf with h1 | ⟨c2, cs2, h2, h3⟩
    · cases h1
    · obtain ⟨rfl, rfl⟩ : c2 = c ∧ cs2 = cs := by
        have := List.cons.injEq .. ▸ h2
        exact ⟨this.1.symm, this.2.symm⟩
      rw [ht] at h3
      cases h3

theorem cutFirst_fst_not_mem (c : Char) (l : List Char) : c ∉ (cutFirst c l).1 := by
  rcases hc : cutFirst c l with ⟨a, b⟩
  rcases cutFirst_spec hc with ⟨_, h2⟩ | ⟨rfl, _, h2⟩ <;> exact h2

theorem cutFirst_fst_IsPrefix (c : Char) (l : List Char) :
    ∃ t, (cutFirst c l).1 ++ t = l := by
  rcases hc : cutFirst c l with ⟨a, b⟩
  rcases cutFirst_spec hc with ⟨h1, _⟩ | ⟨rfl, _, _⟩
  · exact ⟨c :: b, h1.symm⟩
  · exact ⟨[], by simp⟩

theorem cutFirst_fst_subset (c : Char) (l : List Char) :
    ∀ x ∈ (cutFirst c l).1, x ∈ l := by
  intro x h
  obtain ⟨t, ht⟩ := cutFirst_fst_IsPrefix c l
  rw [← ht]
  simp [h]

theorem cutFirst_snd_subset (c : Char) (l : List Char) :
    ∀ x ∈ (cutFirst c l).2, x ∈ l := by
  intro x h
  rcases hc : cutFirst c l with ⟨a, b⟩
  rw [hc] at h
  rcases cutFirst_spec hc with ⟨h1, _⟩ | ⟨_, h2, _⟩
  · rw [h1]
    simp [h]
  · rw [h2] at h
    simp at h

/-- The invariants `urlsplit` guarantees about its result, used to show that
re-splitting an `urlunsplit` reconstruction is the identity. -/
def SplitInv (r : UrlSplitResult) : Prop :=
  (∀ c ∈ r.scheme, lowerSchemeCharP c) ∧
  (∀ c, r.scheme.head? = some c → 0x61 ≤ c.toNat ∧ c.toNat ≤ 0x7A) ∧
  (∀ c ∈ r.netloc, isNetlocDelim c = false ∧ isUnsafeUrlChar c = false) ∧
  bracketOk r.netloc = true ∧
  (∀ c ∈ r.path, c.toNat ≠ 0x3F ∧ c.toNat ≠ 0x23 ∧ isUnsafeUrlChar c = false) ∧
  (∀ c ∈ r.fragment, isUnsafeUrlChar c = false) ∧
  (r.netloc ≠ [] → r.path = [] ∨ r.path.head? = some '/') ∧
  (r.scheme = [] ∧ r.netloc = [] →
    ∀ a b, splitFirst ':' r.path = some (a, b) → schemeTestFail a) ∧
  (r.scheme = [] ∧ r.netloc = [] → ∀ c, r.path.head? = some c → 0x20 < c.toNat)

theorem urlsplitCore_inv {url0 : List Char} {r : UrlSplitResult}
    (h : urlsplitCore url0 = some r) : SplitInv r := by
  unfold urlsplitCore urlsplitAfterScheme urlsplitAfterNetloc at h
  rcases hsp : splitScheme (cleanUrl url0) with ⟨s, rest⟩
  rw [hsp] at h
  dsimp only at h
  -- scheme facts
  have hscheme : (∀ c ∈ s, lowerSchemeCharP c) ∧
      (∀ c, s.head? = some c → 0x61 ≤ c.toNat ∧ c.toNat ≤ 0x7A) := by
    rcases splitScheme_cases (cleanUrl url0) with ⟨heq, _⟩ | ⟨c, cs, rest', hsf, ht, heq⟩
    · rw [hsp] at heq
      obtain ⟨rfl, -⟩ := Prod.mk.injEq .. ▸ heq
      exact ⟨by simp, fun c hc => by cases hc⟩
    · rw [hsp] at heq
      obtain ⟨hseq, -⟩ := Prod.mk.injEq .. ▸ heq
      obtain ⟨hal, hsc⟩ := Bool.and_eq_true_iff.mp ht
      rw [hseq]
      constructor
      · intro x hx
        rw [List.map_cons, List.mem_cons] at hx
        rcases hx with rfl | hx
        · have := lowerAsciiChar_alpha hal
          unfold lowerSchemeCharP
          omega
        · simp only [List.mem_map] at hx
          obtain ⟨y, hy, rfl⟩ := hx
          apply lowerAsciiChar_scheme
          exact List.all_eq_true.mp hsc y hy
      · intro c0 hc0
        rw [List.map_cons, List.head?_cons] at hc0
        obtain rfl := (Option.some.inj hc0).symm
        exact lowerAsciiChar_alpha hal
  -- rest is inside the cleaned URL
  have hrest_sub : ∀ x ∈ rest, x ∈ cleanUrl url0 := by
    rcases splitScheme_cases (cleanUrl url0) with ⟨heq, _⟩ | ⟨c, cs, rest', hsf, ht, heq⟩
    · rw [hsp] at heq
      obtain ⟨-, hre⟩ := Prod.mk.injEq .. ▸ heq
      intro x hx
      rw [hre] at hx
      exact hx
    · rw [hsp] at heq
      obtain ⟨-, hre⟩ := Prod.mk.injEq .. ▸ heq
      obtain ⟨hdec, -⟩ := splitFirst_eq_some hsf
      intro x hx
      rw [hdec, ← hre]
      simp [hx]
  -- scheme-empty characterisation of the remainder
  have hschemeEmpty : s = [] →
      rest = cleanUrl url0 ∧
        ∀ a b, splitFirst ':' (cleanUrl url0) = some (a, b) → schemeTestFail a := by
    intro hs0
    subst hs0
    rcases splitScheme_cases (cleanUrl url0) with ⟨heq, hfail⟩ | ⟨c, cs, rest', hsf, ht, heq⟩
    · rw [hsp] at heq
      obtain ⟨-, hre⟩ := Prod.mk.injEq .. ▸ heq
      exact ⟨hre.symm ▸ rfl, hfail⟩
    · rw [hsp] at heq
      obtain ⟨hseq, -⟩ := Prod.mk.injEq .. ▸ heq
      rw [List.map_cons] at hseq
      cases hseq
  by_cases hnet : rest.take 2 = ['/', '/']
  · rw [if_pos hnet] at h
    rcases hnl : splitNetloc rest with ⟨nl, rest2⟩
    rw [hnl] at h
    dsimp only at h
    unfold splitNetloc at hnl
    obtain ⟨hnl1, hnl2⟩ := Prod.mk.injEq .. ▸ hnl
    by_cases hbr : bracketOk nl = true
    · rw [if_pos hbr] at h
      rcases hfp : cutFirst '#' rest2 with ⟨bf, frag⟩
      rw [hfp] at h
      dsimp only at h
      rcases hqp : cutFirst '?' bf with ⟨pa, q⟩
      rw [hqp] at h
      dsimp only at h
      obtain rfl := (Option.some.inj h).symm
      have hrest2_sub : ∀ x ∈ rest2, x ∈ cleanUrl url0 := by
        intro x hx
        rw [← hnl2] at hx
        exact hrest_sub x (List.drop_subset 2 rest (mem_dropWhile hx))
      have hbf_sub : ∀ x ∈ bf, x ∈ rest2 := by
        intro x hx
        have := cutFirst_fst_subset '#' rest2
        rw [hfp] at this
        exact this x hx
      have hpa_sub : ∀ x ∈ pa, x ∈ bf := by
        intro x hx
        have := cutFirst_fst_subset '?' bf
        rw [hqp] at this
        exact this x hx
      have hpa_q : '?' ∉ pa := by
        have := cutFirst_fst_not_mem '?' bf
        rw [hqp] at this
        exact this
      have hpa_h : '#' ∉ pa := by
        intro hm
        have := cutFirst_fst_not_mem '#' rest2
        rw [hfp] at this
        exact this (hpa_sub _ hm)
      -- shape of the path when an authority was parsed
      have hpa_shape : pa = [] ∨ pa.head? = some '/' := by
        have hhd := dropWhile_head (p := fun c => !isNetlocDelim c) (rest.drop 2)
        rw [hnl2] at hhd
        cases hrest2 : rest2 with
        | nil =>
          left
          rw [hrest2] at hfp
          rw [show cutFirst '#' [] = ([], []) from rfl] at hfp
          obtain ⟨hbf0, -⟩ := Prod.mk.injEq .. ▸ hfp
          rw [← hbf0] at hqp
          rw [show cutFirst '?' [] = ([], []) from rfl] at hqp
          obtain ⟨hpa0, -⟩ := Prod.mk.injEq .. ▸ hqp
          exact hpa0.symm
        | cons c0 cs0 =>
          rw [hrest2] at hhd
          simp only [Bool.not_eq_true'] at hhd
          cases hpa : pa with
          | nil => exact Or.inl rfl
          | cons p0 ps0 =>
            right
            -- the heads of pa, bf, rest2 agree
            obtain ⟨t1, ht1⟩ := cutFirst_fst_IsPrefix '?' bf
            rw [hqp] at ht1
            obtain ⟨t2, ht2⟩ := cutFirst_fst_IsPrefix '#' rest2
            rw [hfp] at ht2
            rw [hpa] at ht1
            have hbfeq : bf = p0 :: (ps0 ++ t1) := by rw [← ht1]; simp
            rw [hbfeq] at ht2
            rw [hrest2] at ht2
            have ht2' : p0 :: (ps0 ++ t1 ++ t2) = c0 :: cs0 := by simpa using ht2
            have hp0 : p0 = c0 := (List.cons.injEq .. ▸ ht2').1
            subst hp0
            have : isNetlocDelim p0 = true := by simpa using hhd
            unfold isNetlocDelim at this
            simp only [Bool.or_eq_true, decide_eq_true_eq] at this
            rcases this with (h' | h') | h'
            · simp [hpa, h']
            · exfalso
              apply hpa_q
              rw [hpa]
              simp [h']
            · exfalso
              apply hpa_h
              rw [hpa]
              simp [h']
      refine ⟨hscheme.1, hscheme.2, ?_, hbr, ?_, ?_, ?_, ?_, ?_⟩
      · intro c hc
        rw [← hnl1] at hc
        constructor
        · have := (mem_takeWhile hc).1
          simpa using this
        · exact mem_cleanUrl_not_unsafe
            (hrest_sub c (List.drop_subset 2 rest ((mem_takeWhile hc).2)))
      · intro c hc
        refine ⟨?_, ?_, ?_⟩
        · intro he
          apply hpa_q
          have : c = '?' := char_eq_iff_toNat.mpr (by rw [he, qmark_toNat])
          rwa [← this]
        · intro he
          apply hpa_h
          have : c = '#' := char_eq_iff_toNat.mpr (by rw [he, hash_toNat])
          rwa [← this]
        · exact mem_cleanUrl_not_unsafe (hrest2_sub c (hbf_sub c (hpa_sub c hc)))
      · intro c hc
        have hsub : c ∈ rest2 := by
          have := cutFirst_snd_subset '#' rest2
          rw [hfp] at this
          exact this c hc
        exact mem_cleanUrl_not_unsafe (hrest2_sub c hsub)
      · intro _
        exact hpa_shape
      · intro _ a b hab
        dsimp only at hab
        rcases hpa_shape with rfl | hhd
        · cases hab
        · obtain ⟨hdec, hfree⟩ := splitFirst_eq_some hab
          cases a with
          | nil => exact Or.inl rfl
          | cons a0 as =>
            right
            refine ⟨a0, as, rfl, ?_⟩
            have ha0 : a0 = '/' := by
              rw [hdec] at hhd
              simpa using hhd
            subst ha0
            rw [show isAsciiAlphaChar '/' = false from by decide]
            simp
      · intro _ c0 hc0
        dsimp only at hc0
        rcases hpa_shape with rfl | hhd
        · cases hc0
        · rw [hc0] at hhd
          obtain rfl := (Option.some.inj hhd).symm
          rw [slash_toNat]
          omega
    · rw [if_neg hbr] at h
      cases h
  · rw [if_neg hnet] at h
    dsimp only at h
    by_cases hbr : bracketOk ([] : List Char) = true
    · rw [if_pos hbr] at h
      rcases hfp : cutFirst '#' rest with ⟨bf, frag⟩
      rw [hfp] at h
      dsimp only at h
      rcases hqp : cutFirst '?' bf with ⟨pa, q⟩
      rw [hqp] at h
      dsimp only at h
      obtain rfl := (Option.some.inj h).symm
      have hbf_sub : ∀ x ∈ bf, x ∈ rest := by
        intro x hx
        have := cutFirst_fst_subset '#' rest
        rw [hfp] at this
        exact this x hx
      have hpa_sub : ∀ x ∈ pa, x ∈ bf := by
        intro x hx
        have := cutFirst_fst_subset '?' bf
        rw [hqp] at this
        exact this x hx
      have hpa_q : '?' ∉ pa := by
        have := cutFirst_fst_not_mem '?' bf
        rw [hqp] at this
        exact this
      have hpa_h : '#' ∉ pa := by
        intro hm
        have := cutFirst_fst_not_mem '#' rest
        rw [hfp] at this
        exact this (hpa_sub _ hm)
      have hpa_pre : ∃ t, pa ++ t = rest := by
        obtain ⟨t1, ht1⟩ := cutFirst_fst_IsPrefix '?' bf
        rw [hqp] at ht1
        obtain ⟨t2, ht2⟩ := cutFirst_fst_IsPrefix '#' rest
        rw [hfp] at ht2
        exact ⟨t1 ++ t2, by rw [← List.append_assoc, ht1, ht2]⟩
      refine ⟨hscheme.1, hscheme.2, by simp, hbr, ?_, ?_, ?_, ?_, ?_⟩
      · intro c hc
        refine ⟨?_, ?_, ?_⟩
        · intro he
          apply hpa_q
          have : c = '?' := char_eq_iff_toNat.mpr (by rw [he, qmark_toNat])
          rwa [← this]
        · intro he
          apply hpa_h
          have : c = '#' := char_eq_iff_toNat.mpr (by rw [he, hash_toNat])
          rwa [← this]
        · exact mem_cleanUrl_not_unsafe (hrest_sub c (hbf_sub c (hpa_sub c hc)))
      · intro c hc
        have hsub : c ∈ rest := by
          have := cutFirst_snd_subset '#' rest
          rw [hfp] at this
          exact this c hc
        exact mem_cleanUrl_not_unsafe (hrest_sub c hsub)
      · intro hfalse
        exact absurd rfl hfalse
      · rintro ⟨hs0, -⟩ a b hab
        dsimp only at hs0 hab
        obtain ⟨hrest_eq, hfail⟩ := hschemeEmpty hs0
        obtain ⟨hdec, hfree⟩ := splitFirst_eq_some hab
        obtain ⟨t, ht⟩ := hpa_pre
        have hu1 : cleanUrl url0 = a ++ ':' :: (b ++ t) := by
          rw [← hrest_eq, ← ht, hdec]
          simp
        exact hfail a (b ++ t) (by rw [hu1]; exact splitFirst_append_cons hfree)
      · rintro ⟨hs0, -⟩ c0 hc0
        dsimp only at hs0 hc0
        obtain ⟨hrest_eq, -⟩ := hschemeEmpty hs0
        cases hpa : pa with
        | nil =>
          rw [hpa] at hc0
          cases hc0
        | cons p0 ps0 =>
          rw [hpa] at hc0
          obtain rfl := (Option.some.inj hc0).symm
          obtain ⟨t, ht⟩ := hpa_pre
          rw [hpa] at ht
          have hu1 : cleanUrl url0 = c0 :: (ps0 ++ t) := by
            rw [← hrest_eq, ← ht]
            simp
          have := cleanUrl_head url0
          rw [hu1] at this
          exact this
    · rw [if_neg hbr] at h
      cases h

theorem takeWhile_stop {p : Char → Bool} {R : List Char}
    (h : match R with | [] => True | c :: _ => p c = false) :
    R.takeWhile p = [] ∧ R.dropWhile p = R := by
  cases R with
  | nil => simp
  | cons c cs =>
    rw [List.takeWhile_cons, List.dropWhile_cons]
    constructor
    · rw [if_neg (by rw [h]; simp)]
    · rw [if_neg (by rw [h]; simp)]

theorem mem_splitFirst_some {c : Char} {l : List Char} (h : c ∈ l) :
    ∃ a b, splitFirst c l = some (a, b) := by
  cases hs : splitFirst c l with
  | none => exact absurd h (splitFirst_none_not_mem hs)
  | some p =>
    obtain ⟨a, b⟩ := p
    exact ⟨a, b, rfl⟩

theorem take2_slashes {pa : List Char} (h : pa.take 2 = ['/', '/']) :
    ∃ t, pa = '/' :: '/' :: t := by
  match pa with
  | [] => cases h
  | [c] => cases h
  | c1 :: c2 :: t =>
    simp only [List.take_succ_cons, List.take_zero] at h
    have h1 : c1 = '/' := by
      have := List.cons.injEq .. ▸ h
      exact this.1
    have h2 : c2 = '/' := by
      have := List.cons.injEq .. ▸ h
      have := List.cons.injEq .. ▸ this.2
      exact this.1
    exact ⟨t, by rw [h1, h2]⟩

theorem lowerSchemeCharP_not_unsafe {c : Char} (h : lowerSchemeCharP c) :
    isUnsafeUrlChar c = false := by
  unfold lowerSchemeCharP at h
  simp only [isUnsafeUrlChar, decide_eq_false_iff_not]
  omega

/-- Re-splitting the reconstruction of a split result (with a fresh query that is
nonempty, contains no `#` and no removable character) is the identity. -/
theorem urlunsplit_resplit {s nl pa q0 frag : List Char}
    (hi : SplitInv ⟨s, nl, pa, q0, frag⟩) (q' : List Char)
    (hq : ∀ c ∈ q', c.toNat ≠ 0x23 ∧ isUnsafeUrlChar c = false) (hq0 : q' ≠ []) :
    urlsplitCore (urlunsplitCore ⟨s, nl, pa, q', frag⟩) = some ⟨s, nl, pa, q', frag⟩ := by
  obtain ⟨h1, h2, h3, h4, h5, h6, h7, h8, h9⟩ := hi
  dsimp only at h1 h2 h3 h4 h5 h6 h7 h8 h9
  -- the fragment part appended last
  have hfragout : ∀ (u : List Char),
      (if frag ≠ [] then u ++ '#' :: frag else u) = u ++ (if frag = [] then [] else '#' :: frag) := by
    intro u
    by_cases hf : frag = []
    · rw [if_neg (by simp [hf]), if_pos hf, List.append_nil]
    · rw [if_pos hf, if_neg hf]
  set fpart := if frag = [] then [] else '#' :: frag with hfpart
  -- characters of the trailing part after the path
  have htail_hash : '#' ∉ pa ++ '?' :: q' := by
    intro hm
    rw [List.mem_append] at hm
    rcases hm with hm | hm
    · exact (h5 '#' hm).2.1 rfl
    · rcases List.mem_cons.mp hm with he | hm
      · cases he
      · exact (hq '#' hm).1 rfl
  -- the two cuts recover path, query and fragment from `pa ++ '?' :: q' ++ fpart`
  have hcuts : cutFirst '?' (cutFirst '#' (pa ++ '?' :: (q' ++ fpart))).1 = (pa, q') ∧
      (cutFirst '#' (pa ++ '?' :: (q' ++ fpart))).2 = frag := by
    have hbase : cutFirst '#' (pa ++ '?' :: (q' ++ fpart)) = (pa ++ '?' :: q', frag) := by
      by_cases hf : frag = []
      · rw [hfpart, if_pos hf, List.append_nil, hf]
        exact cutFirst_not_mem htail_hash
      · rw [hfpart, if_neg hf]
        have : pa ++ '?' :: (q' ++ '#' :: frag) = (pa ++ '?' :: q') ++ '#' :: frag := by
          simp
        rw [this]
        exact cutFirst_append_cons frag htail_hash
    refine ⟨?_, by rw [hbase]⟩
    rw [hbase]
    have hqm : '?' ∉ pa := fun hm => (h5 '?' hm).1 rfl
    exact cutFirst_append_cons q' hqm
  -- no unsafe character anywhere in the reconstruction pieces
  have hclean_tail : ∀ c ∈ pa ++ '?' :: (q' ++ fpart), isUnsafeUrlChar c = false := by
    intro c hm
    rw [List.mem_append] at hm
    rcases hm with hm | hm
    · exact (h5 c hm).2.2
    · rcases List.mem_cons.mp hm with rfl | hm
      · decide
      · rw [List.mem_append] at hm
        rcases hm with hm | hm
        · exact (hq c hm).2
        · rw [hfpart] at hm
          by_cases hf : frag = []
          · rw [if_pos hf] at hm
            cases hm
          · rw [if_neg hf] at hm
            rcases List.mem_cons.mp hm with rfl | hm
            · decide
            · exact h6 c hm
  by_cases hnp : nl ≠ [] ∨ pa.take 2 = ['/', '/']
  · -- an authority part is emitted
    have hadj : (if pa ≠ [] ∧ pa.head? ≠ some '/' then '/' :: pa else pa) = pa := by
      rcases hnp with hnl | hsl
      · rcases h7 hnl with hpa0 | hpah
        · rw [hpa0]
          simp
        · rw [if_neg (by rw [hpah]; simp)]
      · obtain ⟨t, rfl⟩ := take2_slashes hsl
        rw [if_neg (by simp)]
    have hout : urlunsplitCore ⟨s, nl, pa, q', frag⟩ =
        (if s ≠ [] then s ++ ':' :: ('/' :: '/' :: (nl ++ (pa ++ '?' :: (q' ++ fpart))))
          else '/' :: '/' :: (nl ++ (pa ++ '?' :: (q' ++ fpart)))) := by
      unfold urlunsplitCore
      dsimp only
      rw [if_pos hnp, hadj, if_pos hq0, hfragout]
      by_cases hs : s ≠ []
      · rw [if_pos hs, if_pos hs]
        simp
      · rw [if_neg hs, if_neg hs]
        simp
    -- the netloc stage on the part after `//`
    have hnlsplit : splitNetloc ('/' :: '/' :: (nl ++ (pa ++ '?' :: (q' ++ fpart)))) =
        (nl, pa ++ '?' :: (q' ++ fpart)) := by
      unfold splitNetloc
      have hdrop : ('/' :: '/' :: (nl ++ (pa ++ '?' :: (q' ++ fpart)))).drop 2 =
          nl ++ (pa ++ '?' :: (q' ++ fpart)) := rfl
      rw [hdrop]
      have hstop : (pa ++ '?' :: (q' ++ fpart)).takeWhile (fun c => !isNetlocDelim c) = [] ∧
          (pa ++ '?' :: (q' ++ fpart)).dropWhile (fun c => !isNetlocDelim c) =
            pa ++ '?' :: (q' ++ fpart) := by
        apply takeWhile_stop
        rcases hnp with hnl | hsl
        · rcases h7 hnl with hpa0 | hpah
          · rw [hpa0]
            simp [isNetlocDelim]
          · cases pa with
            | nil => simp [isNetlocDelim]
            | cons p0 ps =>
              simp only [List.head?_cons, Option.some.injEq] at hpah
              subst hpah
              simp [isNetlocDelim]
        · obtain ⟨t, rfl⟩ := take2_slashes hsl
          simp [isNetlocDelim]
      rw [takeWhile_append_all _ (fun c hc => by simp [(h3 c hc).1]), hstop.1,
        List.append_nil, dropWhile_append_all _ (fun c hc => by simp [(h3 c hc).1]),
        hstop.2]
    have hschemefacts : ∀ c ∈ s, lowerSchemeCharP c := h1
    by_cases hs : s ≠ []
    · -- scheme present
      rw [hout, if_pos hs]
      unfold urlsplitCore
      rw [cleanUrl_noop (by
          cases s with
          | nil => exact absurd rfl hs
          | cons c0 cs0 =>
            have := h2 c0 (by simp)
            simp only [List.cons_append]
            omega)
        (by
          intro c hm
          rw [List.mem_append] at hm
          rcases hm with hm | hm
          · exact lowerSchemeCharP_not_unsafe (h1 c hm)
          · rcases List.mem_cons.mp hm with rfl | hm
            · decide
            · rcases List.mem_cons.mp hm with rfl | hm
              · decide
              · rcases List.mem_cons.mp hm with rfl | hm
                · decide
                · rw [List.mem_append] at hm
                  rcases hm with hm | hm
                  · exact (h3 c hm).2
                  · exact hclean_tail c hm)]
      rw [splitScheme_mk _ h1 (by
        cases s with
        | nil => exact absurd rfl hs
        | cons c0 cs0 => exact h2 c0 (by simp))]
      unfold urlsplitAfterScheme
      dsimp only
      rw [if_pos (by rfl), hnlsplit]
      unfold urlsplitAfterNetloc
      dsimp only
      rw [if_pos h4, hcuts.2]
      rw [show (cutFirst '?' (cutFirst '#' (pa ++ '?' :: (q' ++ fpart))).1).1 = pa by
        rw [hcuts.1]]
      rw [show (cutFirst '?' (cutFirst '#' (pa ++ '?' :: (q' ++ fpart))).1).2 = q' by
        rw [hcuts.1]]
    · -- no scheme, authority present: the output starts with `//`
      simp only [ne_eq, not_not] at hs
      subst hs
      rw [hout, if_neg (by simp)]
      unfold urlsplitCore
      rw [cleanUrl_noop (by simp only [List.cons_append]; decide)
        (by
          intro c hm
          rcases List.mem_cons.mp hm with rfl | hm
          · decide
          · rcases List.mem_cons.mp hm with rfl | hm
            · decide
            · rw [List.mem_append] at hm
              rcases hm with hm | hm
              · exact (h3 c hm).2
              · exact hclean_tail c hm)]
      rw [splitScheme_none_of (by
        intro a b hab
        obtain ⟨hdec, hfree⟩ := splitFirst_eq_some hab
        cases a with
        | nil => exact Or.inl rfl
        | cons a0 as =>
          right
          refine ⟨a0, as, rfl, ?_⟩
          have ha0 : a0 = '/' := by
            have := List.cons.injEq .. ▸ hdec
            exact this.1.symm ▸ this.1.symm
          subst ha0
          rw [show isAsciiAlphaChar '/' = false from by decide]
          simp)]
      unfold urlsplitAfterScheme
      dsimp only
      rw [if_pos (by rfl), hnlsplit]
      unfold urlsplitAfterNetloc
      dsimp only
      rw [if_pos h4, hcuts.2]
      rw [show (cutFirst '?' (cutFirst '#' (pa ++ '?' :: (q' ++ fpart))).1).1 = pa by
        rw [hcuts.1]]
      rw [show (cutFirst '?' (cutFirst '#' (pa ++ '?' :: (q' ++ fpart))).1).2 = q' by
        rw [hcuts.1]]
  · -- no authority part
    have hnl0 : nl = [] := by
      by_contra hne
      exact hnp (Or.inl hne)
    have hpa2 : ¬pa.take 2 = ['/', '/'] := fun hsl => hnp (Or.inr hsl)
    subst hnl0
    have hout : urlunsplitCore ⟨s, [], pa, q', frag⟩ =
        (if s ≠ [] then s ++ ':' :: (pa ++ '?' :: (q' ++ fpart))
          else pa ++ '?' :: (q' ++ fpart)) := by
      unfold urlunsplitCore
      dsimp only
      rw [if_neg hnp, if_pos hq0, hfragout]
      by_cases hs : s ≠ []
      · rw [if_pos hs, if_pos hs]
        simp
      · rw [if_neg hs, if_neg hs]
        simp
    -- the remainder after the (possibly empty) scheme never starts with `//`
    have htailne : ¬(pa ++ '?' :: (q' ++ fpart)).take 2 = ['/', '/'] := by
      intro hsl
      obtain ⟨t, ht⟩ := take2_slashes hsl
      cases pa with
      | nil =>
        have := List.cons.injEq .. ▸ ht
        cases this.1
      | cons p0 ps =>
        cases ps with
        | nil =>
          simp only [List.cons_append, List.nil_append] at ht
          have h1' := List.cons.injEq .. ▸ ht
          have h2' := List.cons.injEq .. ▸ h1'.2
          cases h2'.1
        | cons p1 pt =>
          apply hpa2
          simp only [List.cons_append] at ht
          have ha := List.cons.injEq .. ▸ ht
          have hb := List.cons.injEq .. ▸ ha.2
          rw [List.take_succ_cons, List.take_succ_cons, List.take_zero, ha.1, hb.1]
    by_cases hs : s ≠ []
    · rw [hout, if_pos hs]
      unfold urlsplitCore
      rw [cleanUrl_noop (by
          cases s with
          | nil => exact absurd rfl hs
          | cons c0 cs0 =>
            have := h2 c0 (by simp)
            simp only [List.cons_append]
            omega)
        (by
          intro c hm
          rw [List.mem_append] at hm
          rcases hm with hm | hm
          · exact lowerSchemeCharP_not_unsafe (h1 c hm)
          · rcases List.mem_cons.mp hm with rfl | hm
            · decide
            · exact hclean_tail c hm)]
      rw [splitScheme_mk _ h1 (by
        cases s with
        | nil => exact absurd rfl hs
        | cons c0 cs0 => exact h2 c0 (by simp))]
      unfold urlsplitAfterScheme
      dsimp only
      rw [if_neg htailne]
      unfold urlsplitAfterNetloc
      dsimp only
      rw [if_pos (by rfl), hcuts.2]
      rw [show (cutFirst '?' (cutFirst '#' (pa ++ '?' :: (q' ++ fpart))).1).1 = pa by
        rw [hcuts.1]]
      rw [show (cutFirst '?' (cutFirst '#' (pa ++ '?' :: (q' ++ fpart))).1).2 = q' by
        rw [hcuts.1]]
    · simp only [ne_eq, not_not] at hs
      subst hs
      rw [hout, if_neg (by simp)]
      unfold urlsplitCore
      rw [cleanUrl_noop (by
          cases hpa : pa with
          | nil => simp only [List.nil_append]; decide
          | cons p0 ps =>
            have := h9 ⟨rfl, rfl⟩ p0 (by rw [hpa]; rfl)
            simp only [List.cons_append]
            omega)
        (by
          intro c hm
          exact hclean_tail c hm)]
      rw [splitScheme_none_of (by
        intro a b hab
        obtain ⟨hdec, hfree⟩ := splitFirst_eq_some hab
        by_cases hcp : ':' ∈ pa
        · obtain ⟨a1, b1, hsp1⟩ := mem_splitFirst_some hcp
          obtain ⟨hdec1, hfree1⟩ := splitFirst_eq_some hsp1
          have hout1 : pa ++ '?' :: (q' ++ fpart) = a1 ++ ':' :: (b1 ++ '?' :: (q' ++ fpart)) := by
            rw [hdec1]
            simp
          have hsf2 : splitFirst ':' (pa ++ '?' :: (q' ++ fpart)) =
              some (a1, b1 ++ '?' :: (q' ++ fpart)) := by
            rw [hout1]
            exact splitFirst_append_cons hfree1
          rw [hab] at hsf2
          obtain ⟨hae, -⟩ := Prod.mk.injEq .. ▸ Option.some.inj hsf2
          rw [hae]
          exact h8 ⟨rfl, rfl⟩ a1 b1 hsp1
        · have hlift := splitFirst_append (m := '?' :: (q' ++ fpart)) hcp
          rw [hab] at hlift
          cases hs2 : splitFirst ':' ('?' :: (q' ++ fpart)) with
          | none =>
            rw [hs2] at hlift
            cases hlift
          | some p2 =>
            rw [hs2] at hlift
            obtain ⟨a2, b2⟩ := p2
            simp only [Option.map_some'] at hlift
            obtain ⟨hae, -⟩ := Prod.mk.injEq .. ▸ (Option.some.inj hlift).symm
            have ha2 : ∃ a3, a2 = '?' :: a3 := by
              unfold splitFirst at hs2
              rw [if_neg (by decide)] at hs2
              cases hs3 : splitFirst ':' (q' ++ fpart) with
              | none => rw [hs3] at hs2; cases hs2
              | some p3 =>
                rw [hs3] at hs2
                obtain ⟨h1', -⟩ := Prod.mk.injEq .. ▸ Option.some.inj hs2
                exact ⟨p3.1, h1'.symm⟩
            obtain ⟨a3, rfl⟩ := ha2
            cases hpa : pa with
            | nil =>
              rw [hpa] at hae
              rw [← hae]
              right
              refine ⟨'?', a3, by simp, ?_⟩
              rw [show isAsciiAlphaChar '?' = false from by decide]
              simp
            | cons p0 ps =>
              rw [hpa] at hae
              rw [← hae]
              right
              refine ⟨p0, ps ++ '?' :: a3, by simp, ?_⟩
              have hqs : isSchemeChar '?' = false := by decide
              have hfa : (ps ++ '?' :: a3).all isSchemeChar = false := by
                by_contra hcon
                rw [Bool.not_eq_false, List.all_eq_true] at hcon
                have h4' := hcon '?' (by simp)
                rw [hqs] at h4'
                cases h4'
              rw [hfa]
              simp)]
      unfold urlsplitAfterScheme
      dsimp only
      rw [if_neg htailne]
      unfold urlsplitAfterNetloc
      dsimp only
      rw [if_pos (by rfl), hcuts.2]
      rw [show (cutFirst '?' (cutFirst '#' (pa ++ '?' :: (q' ++ fpart))).1).1 = pa by
        rw [hcuts.1]]
      rw [show (cutFirst '?' (cutFirst '#' (pa ++ '?' :: (q' ++ fpart))).1).2 = q' by
        rw [hcuts.1]]

/-! ### Characters of `urlencode` output -/

theorem intercalate_cons2 {c : Char} (p q : List Char) (qs : List (List Char)) :
    List.intercalate [c] (p :: q :: qs) = p ++ c :: List.intercalate [c] (q :: qs) := by
  simp [List.intercalate, List.intersperse]

theorem mem_intercalate {c : Char} {ps : List (List Char)} {x : Char}
    (h : x ∈ List.intercalate [c] ps) : x = c ∨ ∃ p ∈ ps, x ∈ p := by
  induction ps with
  | nil => simp [List.intercalate] at h
  | cons p rest ih =>
    cases rest with
    | nil =>
      right
      refine ⟨p, by simp, ?_⟩
      simpa [List.intercalate, List.intersperse] using h
    | cons q qs =>
      rw [intercalate_cons2, List.mem_append] at h
      rcases h with h | h
      · right; exact ⟨p, by simp, h⟩
      · rcases List.mem_cons.mp h with rfl | h
        · left; rfl
        · rcases ih h with h | ⟨p', hp', hx⟩
          · left; exact h
          · right; exact ⟨p', by simp [hp'], hx⟩

/-- Every character of `urlencode` output is printable and not `#`: it survives
`urlsplit` cleaning and is not read as a fragment separator. -/
theorem urlencode_chars {d : List (List Char × List (List Char))} {x : Char}
    (hx : x ∈ urlencode d) : x.toNat ≠ 0x23 ∧ isUnsafeUrlChar x = false := by
  have hqc : ∀ y : Char, isQuoteOutChar y → y.toNat ≠ 0x23 ∧ isUnsafeUrlChar y = false := by
    intro y hy
    obtain ⟨hy1, hy2, hy3, hy4, hy5, hy6, hy7, hy8⟩ := hy
    refine ⟨hy5, ?_⟩
    simp only [isUnsafeUrlChar, decide_eq_false_iff_not]
    omega
  unfold urlencode at hx
  rcases mem_intercalate hx with rfl | ⟨p, hp, hxp⟩
  · exact ⟨by decide, by decide⟩
  · rw [List.mem_flatMap] at hp
    obtain ⟨kv, -, hpm⟩ := hp
    rw [List.mem_map] at hpm
    obtain ⟨v, -, rfl⟩ := hpm
    rw [List.mem_append] at hxp
    rcases hxp with hxp | hxp
    · exact hqc x (quote_plus_out hxp)
    · rcases List.mem_cons.mp hxp with rfl | hxp
      · exact ⟨by decide, by decide⟩
      · exact hqc x (quote_plus_out hxp)

theorem dictGet_some_mem {d : List (List Char × List (List Char))} {k : List Char}
    {vs : List (List Char)} (h : dictGet d k = some vs) : (k, vs) ∈ d := by
  induction d with
  | nil => cases h
  | cons kv rest ih =>
    obtain ⟨k', vs'⟩ := kv
    simp only [dictGet] at h
    by_cases hk : k' = k
    · rw [if_pos hk] at h
      subst hk
      have hv := Option.some.inj h
      rw [← hv]
      exact List.mem_cons_self _ _
    · rw [if_neg hk] at h
      exact List.mem_cons.mpr (Or.inr (ih h))

theorem intercalate_ne_nil {c : Char} {ps : List (List Char)}
    (h : ∃ p ∈ ps, p ≠ []) : List.intercalate [c] ps ≠ [] := by
  induction ps with
  | nil =>
    obtain ⟨p, hp, -⟩ := h
    cases hp
  | cons p rest ih =>
    cases rest with
    | nil =>
      obtain ⟨p', hp', hne⟩ := h
      rcases List.mem_cons.mp hp' with rfl | hp'
      · simpa [List.intercalate, List.intersperse] using hne
      · cases hp'
    | cons q qs =>
      rw [intercalate_cons2]
      intro he
      cases (List.append_eq_nil.mp he).2

theorem urlencode_ne_nil {d : List (List Char × List (List Char))} {k : List Char}
    {v : List Char} {vs : List (List Char)} (h : dictGet d k = some vs) (hv : v ∈ vs) :
    urlencode d ≠ [] := by
  unfold urlencode
  apply intercalate_ne_nil
  refine ⟨quote_plus k ++ '=' :: quote_plus v, ?_, by simp⟩
  rw [List.mem_flatMap]
  exact ⟨(k, vs), dictGet_some_mem h, List.mem_map.mpr ⟨v, hv, rfl⟩⟩

/-! ## The URL-rewriting functions of the two scripts -/

/-- The query key `"page"`. -/
def pageKey : List Char := ['p', 'a', 'g', 'e']

/-- `get_page_number_from_url` after `urlsplit` succeeded: `query.get("page", [None])[0]`,
`None` for absence, `int(...)` with `ValueError` mapped to `None`. -/
def getPageAfterSplit (parts : UrlSplitResult) : Option (Option Int) :=
  match dictGet (parse_qs parts.query) pageKey with
  | none => some none
  | some vs =>
    match vs.head? with
    | none => none
    | some raw => some (pyInt? raw)

/-- `simple_click_connect_attach.get_page_number_from_url`: the outer `none` models
the `ValueError` that `urlsplit` raises on bracket-unbalanced authorities (the
function does not catch it); the inner option is its `int | None` result. -/
def get_page_number_from_url (url : List Char) : Option (Option Int) :=
  match urlsplitCore url with
  | none => none
  | some parts => getPageAfterSplit parts

/-- `with_page_number` after `urlsplit` succeeded: `query["page"] = [str(page_number)]`,
re-encode, reassemble. -/
def withPageAfterSplit (parts : UrlSplitResult) (page_number : Int) : List Char :=
  urlunsplitCore ⟨parts.scheme, parts.netloc, parts.path,
    urlencode (dictSet (parse_qs parts.query) pageKey [pyStrInt page_number]),
    parts.fragment⟩

/-- `simple_click_connect_attach.with_page_number`. -/
def with_page_number (url : List Char) (page_number : Int) : Option (List Char) :=
  match urlsplitCore url with
  | none => none
  | some parts => some (withPageAfterSplit parts page_number)

/-- `increment_page_query` after `urlsplit` succeeded: read `query.get("page", ["1"])[0]`,
`int(...)` with `ValueError` defaulting to 1, advance by one and rewrite. The inner
`none` models the `IndexError` of `[0]` on an empty value list (unreachable for
`parse_qs` output). -/
def incrementAfterSplit (parts : UrlSplitResult) : Option (List Char × Int) :=
  match (match dictGet (parse_qs parts.query) pageKey with
         | none => some ['1']
         | some vs => vs.head?) with
  | none => none
  | some s =>
    some (withPageAfterSplit parts ((pyInt? s).getD 1 + 1), (pyInt? s).getD 1 + 1)

/-- `click_connect_helper.increment_page_query`: the rewritten URL and the new cursor. -/
def increment_page_query (url : List Char) : Option (List Char × Int) :=
  match urlsplitCore url with
  | none => none
  | some parts => incrementAfterSplit parts

/-! ### Round-trip facts about the rewrite -/

/-- Re-splitting the URL reassembled after a `page` rewrite recovers the original
scheme, netloc, path and fragment together with the re-encoded query. -/
theorem resplit_after_set {url : List Char} {parts : UrlSplitResult}
    (h : urlsplitCore url = some parts) (newVal : List Char) :
    urlsplitCore (urlunsplitCore ⟨parts.scheme, parts.netloc, parts.path,
        urlencode (dictSet (parse_qs parts.query) pageKey [newVal]), parts.fragment⟩) =
      some ⟨parts.scheme, parts.netloc, parts.path,
        urlencode (dictSet (parse_qs parts.query) pageKey [newVal]), parts.fragment⟩ := by
  have hinv := urlsplitCore_inv h
  obtain ⟨s, nl, pa, q0, fr⟩ := parts
  exact urlunsplit_resplit hinv _ (fun c hc => urlencode_chars hc)
    (urlencode_ne_nil (dictGet_dictSet_self _ _ _) (List.mem_singleton.mpr rfl))

/-- After the rewrite, the flat pair list of the query holds exactly one `page`
pair, carrying the new value. -/
theorem qsl_after_set (q newVal : List Char) :
    (parse_qsl (urlencode (dictSet (parse_qs q) pageKey [newVal]))).filter
      (fun p => decide (p.1 = pageKey)) = [(pageKey, newVal)] := by
  rw [parse_qsl_urlencode, filter_pairs_dictSet (parse_qs_keys_nodup q)]
  simp

/-- After the rewrite, `parse_qs` maps `page` to exactly the singleton new value. -/
theorem parse_qs_after_set (q newVal : List Char) :
    dictGet (parse_qs (urlencode (dictSet (parse_qs q) pageKey [newVal]))) pageKey =
      some [newVal] := by
  have hpe : parse_qs (urlencode (dictSet (parse_qs q) pageKey [newVal])) =
      (parse_qsl (urlencode (dictSet (parse_qs q) pageKey [newVal]))).foldl
        (fun d p => addQsPair d p.1 p.2) [] := rfl
  rw [hpe, foldl_addQsPair_get, qsl_after_set]
  simp [optAppend, dictGet]

/-- The conclusion shared by both `page` rewrites: scheme, netloc, path and
fragment are preserved and the new query carries exactly one `page` pair, whose
value is `str(n)`. -/
theorem rewrite_concl {url : List Char} {parts : UrlSplitResult}
    (hs : urlsplitCore url = some parts) (n : Int) :
    ∃ r r', urlsplitCore url = some r ∧
      urlsplitCore (withPageAfterSplit parts n) = some r' ∧
      r'.scheme = r.scheme ∧ r'.netloc = r.netloc ∧ r'.path = r.path ∧
      r'.fragment = r.fragment ∧
      (parse_qsl r'.query).filter (fun p => decide (p.1 = pageKey)) =
        [(pageKey, pyStrInt n)] ∧ pyInt? (pyStrInt n) = some n :=
  ⟨parts, ⟨parts.scheme, parts.netloc, parts.path,
      urlencode (dictSet (parse_qs parts.query) pageKey [pyStrInt n]), parts.fragment⟩,
    hs, resplit_after_set hs (pyStrInt n), rfl, rfl, rfl, rfl,
    qsl_after_set parts.query (pyStrInt n), pyInt_pyStrInt n⟩

/-- C1: for every URL, rewriting to cursor `n` — by `with_page_number` or by
`increment_page_query` (where `n` is its returned next cursor) — yields a URL
whose scheme, netloc, path and fragment equal those of the input URL and whose
query contains exactly one `page` parameter, whose value is `str(n)` (and reads
back as `n`). -/
theorem claim_C1 :
    (∀ url n out, with_page_number url n = some out →
      ∃ r r', urlsplitCore url = some r ∧ urlsplitCore out = some r' ∧
        r'.scheme = r.scheme ∧ r'.netloc = r.netloc ∧ r'.path = r.path ∧
        r'.fragment = r.fragment ∧
        (parse_qsl r'.query).filter (fun p => decide (p.1 = pageKey)) =
          [(pageKey, pyStrInt n)] ∧ pyInt? (pyStrInt n) = some n) ∧
    (∀ url out n, increment_page_query url = some (out, n) →
      ∃ r r', urlsplitCore url = some r ∧ urlsplitCore out = some r' ∧
        r'.scheme = r.scheme ∧ r'.netloc = r.netloc ∧ r'.path = r.path ∧
        r'.fragment = r.fragment ∧
        (parse_qsl r'.query).filter (fun p => decide (p.1 = pageKey)) =
          [(pageKey, pyStrInt n)] ∧ pyInt? (pyStrInt n) = some n) := by
  constructor
  · intro url n out h
    unfold with_page_number at h
    cases hs : urlsplitCore url with
    | none => rw [hs] at h; cases h
    | some parts =>
      rw [hs] at h
      have hout : withPageAfterSplit parts n = out := Option.some.inj h
      subst hout
      rw [← hs]
      exact rewrite_concl hs n
  · intro url out n h
    unfold increment_page_query at h
    cases hs : urlsplitCore url with
    | none => rw [hs] at h; cases h
    | some parts =>
      rw [hs] at h
      have h' : incrementAfterSplit parts = some (out, n) := h
      unfold incrementAfterSplit at h'
      cases hd : dictGet (parse_qs parts.query) pageKey with
      | none =>
        rw [hd] at h'
        have h2 : (withPageAfterSplit parts ((pyInt? ['1']).getD 1 + 1),
            (pyInt? ['1']).getD 1 + 1) = (out, n) := Option.some.inj h'
        obtain ⟨hout, hn⟩ := Prod.mk.injEq .. ▸ h2
        subst hout
        subst hn
        rw [← hs]
        exact rewrite_concl hs _
      | some vs =>
        rw [hd] at h'
        cases hh : vs.head? with
        | none =>
          rw [show (match some vs with
              | none => some ['1']
              | some vs => vs.head?) = vs.head? from rfl, hh] at h'
          cases h'
        | some str0 =>
          rw [show (match some vs with
              | none => some ['1']
              | some vs => vs.head?) = vs.head? from rfl, hh] at h'
          have h2 : (withPageAfterSplit parts ((pyInt? str0).getD 1 + 1),
              (pyInt? str0).getD 1 + 1) = (out, n) := Option.some.inj h'
          obtain ⟨hout, hn⟩ := Prod.mk.injEq .. ▸ h2
          subst hout
          subst hn
          rw [← hs]
          exact rewrite_concl hs _

/-- C1 witness: the rewrite of a concrete URL, with the round-trip conclusion
instantiated there. -/
theorem claim_C1_witness :
    with_page_number ("http://h/p?a=b".toList) 5 = some ("http://h/p?a=b&page=5".toList) ∧
    (∃ r r', urlsplitCore ("http://h/p?a=b".toList) = some r ∧
      urlsplitCore ("http://h/p?a=b&page=5".toList) = some r' ∧
      r'.scheme = r.scheme ∧ r'.netloc = r.netloc ∧ r'.path = r.path ∧
      r'.fragment = r.fragment ∧
      (parse_qsl r'.query).filter (fun p => decide (p.1 = pageKey)) =
        [(pageKey, pyStrInt 5)] ∧ pyInt? (pyStrInt 5) = some 5) :=
  ⟨rfl, claim_C1.1 ("http://h/p?a=b".toList) 5 ("http://h/p?a=b&page=5".toList) rfl⟩

/-- C9: reading the cursor back from the URL rewritten by `with_page_number`
recovers the target cursor. -/
theorem claim_C9 : ∀ (url : List Char) (n : Int) (out : List Char),
    with_page_number url n = some out →
    get_page_number_from_url out = some (some n) := by
  intro url n out h
  unfold with_page_number at h
  cases hs : urlsplitCore url with
  | none => rw [hs] at h; cases h
  | some parts =>
    rw [hs] at h
    have hout : withPageAfterSplit parts n = out := Option.some.inj h
    subst hout
    unfold get_page_number_from_url withPageAfterSplit
    rw [resplit_after_set hs (pyStrInt n)]
    show getPageAfterSplit ⟨parts.scheme, parts.netloc, parts.path,
      urlencode (dictSet (parse_qs parts.query) pageKey [pyStrInt n]), parts.fragment⟩ =
        some (some n)
    unfold getPageAfterSplit
    dsimp only
    rw [parse_qs_after_set]
    show some (pyInt? (pyStrInt n)) = some (some n)
    rw [pyInt_pyStrInt]

/-- C9 witness: the round trip at a concrete URL and cursor. -/
theorem claim_C9_witness :
    with_page_number ("http://h/p".toList) 3 = some ("http://h/p?page=3".toList) ∧
    get_page_number_from_url ("http://h/p?page=3".toList) = some (some 3) :=
  ⟨rfl, claim_C9 ("http://h/p".toList) 3 ("http://h/p?page=3".toList) rfl⟩

/-- C4 counterexample: on a URL with no `page` parameter the autonomous reader
`get_page_number_from_url` returns `None`, not 1 (while the interactive
`increment_page_query` does default the cursor to 1 and navigates to 2). -/
theorem claim_C4_counterexample :
    get_page_number_from_url ("http://h/p".toList) = some none ∧
    increment_page_query ("http://h/p".toList) = some ("http://h/p?page=2".toList, 2) :=
  ⟨rfl, rfl⟩

/-- C4 (amended): when the `page` parameter is absent or non-numeric, the
interactive navigator's read (`increment_page_query`) defaults the cursor to 1
and rewrites to cursor 2, but the autonomous navigator's read
(`get_page_number_from_url`) returns `None`, not 1. -/
theorem claim_C4 :
    (∀ url parts, urlsplitCore url = some parts →
      dictGet (parse_qs parts.query) pageKey = none →
      increment_page_query url = some (withPageAfterSplit parts 2, 2) ∧
      get_page_number_from_url url = some none) ∧
    (∀ url parts vs str0, urlsplitCore url = some parts →
      dictGet (parse_qs parts.query) pageKey = some vs → vs.head? = some str0 →
      pyInt? str0 = none →
      increment_page_query url = some (withPageAfterSplit parts 2, 2) ∧
      get_page_number_from_url url = some (pyInt? str0)) := by
  constructor
  · intro url parts hs hd
    constructor
    · unfold increment_page_query
      rw [hs]
      show incrementAfterSplit parts = some (withPageAfterSplit parts 2, 2)
      unfold incrementAfterSplit
      rw [hd]
      show some (withPageAfterSplit parts ((pyInt? ['1']).getD 1 + 1),
        (pyInt? ['1']).getD 1 + 1) = some (withPageAfterSplit parts 2, 2)
      rw [show (pyInt? ['1']).getD 1 + 1 = (2 : Int) from by decide]
    · unfold get_page_number_from_url
      rw [hs]
      show getPageAfterSplit parts = some none
      unfold getPageAfterSplit
      rw [hd]
  · intro url parts vs str0 hs hd hh hpn
    constructor
    · unfold increment_page_query
      rw [hs]
      show incrementAfterSplit parts = some (withPageAfterSplit parts 2, 2)
      unfold incrementAfterSplit
      rw [hd]
      show (match vs.head? with
            | none => (none : Option (List Char × Int))
            | some s => some (withPageAfterSplit parts ((pyInt? s).getD 1 + 1),
                (pyInt? s).getD 1 + 1)) = some (withPageAfterSplit parts 2, 2)
      rw [hh]
      show some (withPageAfterSplit parts ((pyInt? str0).getD 1 + 1),
        (pyInt? str0).getD 1 + 1) = some (withPageAfterSplit parts 2, 2)
      rw [hpn]
      rfl
    · unfold get_page_number_from_url
      rw [hs]
      show getPageAfterSplit parts = some (pyInt? str0)
      unfold getPageAfterSplit
      rw [hd]
      show (match vs.head? with
            | none => (none : Option (Option Int))
            | some raw => some (pyInt? raw)) = some (pyInt? str0)
      rw [hh]

/-- C4 witness: the amended statement at a concrete URL without a `page`
parameter. -/
theorem claim_C4_witness :
    increment_page_query ("http://h/p".toList) =
      some (withPageAfterSplit ⟨"http".toList, "h".toList, "/p".toList, [], []⟩ 2, 2) ∧
    get_page_number_from_url ("http://h/p".toList) = some none :=
  claim_C4.1 ("http://h/p".toList) ⟨"http".toList, "h".toList, "/p".toList, [], []⟩ rfl rfl

/-! ## The autonomous driver (`simple_click_connect_attach.py` main flow)

The Playwright page is modelled by an oracle: a list of events consumed in
program order, one per observation the script makes (counts, attribute reads,
action results, clock comparisons, URL reads, closed checks).  Actions that
affect the page (clicks, navigations, attribute writes, scrolling) are recorded
in an output trace.  An uncaught `PlaywrightError` is `MRes.exn`; an exhausted
oracle or fuel is the model artifact `MRes.stuck`.  Timeouts, sleeps and log
output carry no state and are not modelled; the timestamp inside generated
helper ids is dropped (ids stay distinct through the sequence number). -/

/-- The result of a Playwright call that acts on the page: success, a
`PlaywrightTimeoutError` with its message, or another `PlaywrightError`. -/
inductive ActRes where
  | ok
  | timeoutErr (msg : List Char)
  | err (msg : List Char)
deriving Repr, DecidableEq

/-- Page-affecting actions the driver performs, in order. -/
inductive Act where
  | click (target : List Char)
  | goto (u : List Char)
  | setAttr (id : List Char)
  | wheel
  | scroll
deriving Repr, DecidableEq

/-- One oracle event: what the page answers to the next observation. -/
inductive Ev where
  | cnt (r : Option Nat)
  | attr (r : Option (Option (List Char)))
  | act (r : ActRes)
  | timeCmp (b : Bool)
  | url (u : List Char)
  | closed (b : Bool)
deriving Repr, DecidableEq

/-- The oracle state: pending events and the actions performed so far. -/
structure S where
  evs : List Ev
  acts : List Act
deriving Repr, DecidableEq

/-- The result of running a piece of the driver. -/
inductive MRes (α : Type) where
  | ok (a : α) (s : S)
  | exn (s : S)
  | stuck
deriving Repr

def MRes.bind {α β : Type} : MRes α → (α → S → MRes β) → MRes β
  | .ok a s, f => f a s
  | .exn s, _ => .exn s
  | .stuck, _ => .stuck

/-- Consume a `.count()` result. -/
def takeCnt (s : S) : MRes (Option Nat) :=
  match s.evs with
  | Ev.cnt r :: evs => .ok r ⟨evs, s.acts⟩
  | _ => .stuck

/-- Consume a `.get_attribute` result (`none` = the call raised). -/
def takeAttr (s : S) : MRes (Option (List Char)) :=
  match s.evs with
  | Ev.attr (some r) :: evs => .ok r ⟨evs, s.acts⟩
  | Ev.attr none :: evs => .exn ⟨evs, s.acts⟩
  | _ => .stuck

/-- Perform an optional action and consume its result event. -/
def takeAct (a : Option Act) (s : S) : MRes ActRes :=
  match s.evs with
  | Ev.act r :: evs => .ok r ⟨evs, s.acts ++ (match a with | some x => [x] | none => [])⟩
  | _ => .stuck

/-- Consume a `time.time() < deadline` comparison. -/
def takeTime (s : S) : MRes Bool :=
  match s.evs with
  | Ev.timeCmp b :: evs => .ok b ⟨evs, s.acts⟩
  | _ => .stuck

/-- Consume a `page.url` read. -/
def takeUrl (s : S) : MRes (List Char) :=
  match s.evs with
  | Ev.url u :: evs => .ok u ⟨evs, s.acts⟩
  | _ => .stuck

/-- Consume a `page.is_closed()` read. -/
def takeClosed (s : S) : MRes Bool :=
  match s.evs with
  | Ev.closed b :: evs => .ok b ⟨evs, s.acts⟩
  | _ => .stuck

/-- The status strings of the modal workflow and of the lingering-modal resolver. -/
inductive ModalStatus where
  | no_modal
  | blocked
  | send_timeout
  | send_error
  | stalled_modal
  | sent
  | clear
  | closed_without_send
  | still_open
deriving Repr, DecidableEq

/-- `{"blocked", "send_timeout", "send_error", "stalled_modal"}` of the main loop. -/
def failSet : List ModalStatus :=
  [.blocked, .send_timeout, .send_error, .stalled_modal]

/-- `is_dialog_open`: `count() > 0`, a raise is caught and read as `False`. -/
def is_dialog_open (s : S) : MRes Bool :=
  (takeCnt s).bind fun r s₁ =>
    .ok (match r with | some n => decide (0 < n) | none => false) s₁

/-- The three `error_patterns` probes of `has_modal_error`: a raise is caught and
the loop continues with the next pattern. -/
def hmeLoop : Nat → S → MRes Bool
  | 0, s => .ok false s
  | Nat.succ k, s =>
    (takeCnt s).bind fun r s₁ =>
      match r with
      | some (Nat.succ _) => .ok true s₁
      | _ => hmeLoop k s₁

/-- `has_modal_error`: the initial `dialog.count()` is not guarded, a raise
propagates. -/
def has_modal_error (s : S) : MRes Bool :=
  (takeCnt s).bind fun r s₁ =>
    match r with
    | none => .exn s₁
    | some 0 => .ok false s₁
    | some (Nat.succ _) => hmeLoop 3 s₁

/-- `close_modal_if_open`: try the Cancel button, then the close-button selector;
the clicks are unguarded, a raise propagates. -/
def close_modal_if_open (s : S) : MRes Bool :=
  (takeCnt s).bind fun r s₁ =>
    match r with
    | none => .exn s₁
    | some 0 => .ok false s₁
    | some (Nat.succ _) =>
      (takeCnt s₁).bind fun rc s₂ =>
        match rc with
        | none => .exn s₂
        | some (Nat.succ _) =>
          (takeAct (some (Act.click ("Cancel".toList))) s₂).bind fun ra s₃ =>
            match ra with
            | .ok => .ok true s₃
            | _ => .exn s₃
        | some 0 =>
          (takeCnt s₂).bind fun rb s₃ =>
            match rb with
            | none => .exn s₃
            | some (Nat.succ _) =>
              (takeAct (some (Act.click ("close".toList))) s₃).bind fun ra s₄ =>
                match ra with
                | .ok => .ok true s₄
                | _ => .exn s₄
            | some 0 => .ok false s₃

/-- The polling loop of `process_invite_modal` after a successful submit click. -/
def pimLoop : Nat → S → MRes ModalStatus
  | 0, _ => .stuck
  | Nat.succ k, s =>
    (takeTime s).bind fun t s₁ =>
      if t then
        (has_modal_error s₁).bind fun he s₂ =>
          if he then (close_modal_if_open s₂).bind fun _ s₃ => .ok .blocked s₃
          else
            (is_dialog_open s₂).bind fun d s₃ =>
              if d then pimLoop k s₃ else .ok .sent s₃
      else
        (has_modal_error s₁).bind fun he s₂ =>
          if he then (close_modal_if_open s₂).bind fun _ s₃ => .ok .blocked s₃
          else (close_modal_if_open s₂).bind fun _ s₃ => .ok .stalled_modal s₃

/-- `process_invite_modal` (lines 168–209): wait for the submit button, check for
a modal error, click, then poll until the dialog clears or the deadline passes. -/
def process_invite_modal (lbl : List Char) (fuel : Nat) (s : S) : MRes ModalStatus :=
  (takeAct none s).bind fun rw s₁ =>
    match rw with
    | .timeoutErr _ => .ok .no_modal s₁
    | .err _ => .ok .no_modal s₁
    | .ok =>
      (has_modal_error s₁).bind fun he s₂ =>
        if he then (close_modal_if_open s₂).bind fun _ s₃ => .ok .blocked s₃
        else
          (takeAct (some (Act.click lbl)) s₂).bind fun rc s₃ =>
            match rc with
            | .ok => pimLoop fuel s₃
            | .timeoutErr _ =>
              (has_modal_error s₃).bind fun he₂ s₄ =>
                if he₂ then (close_modal_if_open s₄).bind fun _ s₅ => .ok .blocked s₅
                else .ok .send_timeout s₄
            | .err _ =>
              (has_modal_error s₃).bind fun he₂ s₄ =>
                if he₂ then (close_modal_if_open s₄).bind fun _ s₅ => .ok .blocked s₅
                else .ok .send_error s₄

/-- `resolve_any_open_modal` (lines 212–220). -/
def resolve_any_open_modal (lbl : List Char) (fuel : Nat) (s : S) : MRes ModalStatus :=
  (is_dialog_open s).bind fun d s₁ =>
    if d then
      (process_invite_modal lbl fuel s₁).bind fun st s₂ =>
        match st with
        | .no_modal =>
          (close_modal_if_open s₂).bind fun c s₃ =>
            .ok (if c then .closed_without_send else .still_open) s₃
        | other => .ok other s₂
    else .ok .clear s₁

/-- `wait_for_connect_change` (lines 223–230): poll the button count until it
drops below `prev` or the deadline passes; the unguarded count can raise. -/
def wait_for_connect_change (lbl : List Char) (prev : Nat) : Nat → S → MRes Bool
  | 0, _ => .stuck
  | Nat.succ k, s =>
    (takeTime s).bind fun t s₁ =>
      if t then
        (takeCnt s₁).bind fun r s₂ =>
          match r with
          | none => .exn s₂
          | some cur => if cur < prev then .ok true s₂ else wait_for_connect_change lbl prev k s₂
      else .ok false s₁

/-- `discover_connect_buttons` (lines 233–258): probe and scroll until a button
shows up or the settle deadline passes (a raised count reads as 0, a raised
scroll is ignored). -/
def discover_connect_buttons (lbl : List Char) : Nat → Nat → S → MRes Nat
  | 0, _, _ => .stuck
  | Nat.succ k, mx, s =>
    (takeTime s).bind fun t s₁ =>
      if t then
        (takeCnt s₁).bind fun r s₂ =>
          let mx' := max mx (r.getD 0)
          if 0 < mx' then .ok mx' s₂
          else (takeAct (some Act.wheel) s₂).bind fun _ s₃ => discover_connect_buttons lbl k mx' s₃
      else .ok mx s₁

/-- The helper id the driver writes onto a control (its timestamp component is
not modelled; the sequence number keeps ids distinct). -/
def pmiHelperId (seq : Nat) : List Char := "pmi-helper-".toList ++ natToDigits seq

/-- `get_or_assign_button_id` (lines 108–117): reuse a present id, else tag the
control with a fresh one (the unguarded reads/writes can raise). -/
def get_or_assign_button_id (idSeq : Nat) (s : S) : MRes (List Char × Nat) :=
  (takeAttr s).bind fun r s₁ =>
    match r with
    | some (c :: cs) => .ok (c :: cs, idSeq) s₁
    | _ =>
      (takeAct (some (Act.setAttr (pmiHelperId idSeq))) s₁).bind fun ra s₂ =>
        match ra with
        | .ok => .ok (pmiHelperId idSeq, idSeq + 1) s₂
        | _ => .exn s₂

/-- The candidate scan of the main loop (lines 479–488): walk the controls in
order, skipping ids in the registry, and return the first selectable id. -/
def select_button (skipped : List (List Char)) (idSeq : Nat) : Nat → S → MRes (Option (List Char) × Nat)
  | 0, s => .ok (none, idSeq) s
  | Nat.succ rem, s =>
    (get_or_assign_button_id idSeq s).bind fun p s₁ =>
      if p.1 ∈ skipped then select_button skipped p.2 rem s₁
      else .ok (some p.1, p.2) s₁

/-- The attempt loop of `goto_with_retries`: the argument counts the attempts
still allowed, an attempt is final when none remain after it. -/
def gotoLoop (u : List Char) : Nat → S → MRes Bool
  | 0, s => .ok false s
  | Nat.succ rem, s =>
    (takeAct (some (Act.goto u)) s).bind fun r s₁ =>
      match r with
      | .ok => .ok true s₁
      | _ => match rem with
             | 0 => .ok false s₁
             | Nat.succ _ => gotoLoop u rem s₁

/-- `goto_with_retries` (lines 280–295). -/
def goto_with_retries (u : List Char) (retries : Nat) (s : S) : MRes Bool :=
  gotoLoop u retries s

/-- The next-arrow selector literal of `go_to_next_page`. -/
def nextArrowSelector : List Char :=
  "a[aria-label*='next' i],button[aria-label*='next' i],a[rel='next']".toList

/-- The expected-cursor branch of `go_to_next_page`: up to `max_attempts` rounds
of rewriting the old URL to the expected cursor and navigating there. -/
def gnpExpected (old_url : List Char) (exp : Int) (retries : Nat) :
    Nat → Option Int → S → MRes (Bool × Option Int)
  | 0, landed, s => .ok (false, landed) s
  | Nat.succ k, landed, s =>
    match with_page_number old_url exp with
    | none => .exn s
    | some next_url =>
      (goto_with_retries next_url retries s).bind fun okrun s₁ =>
        if okrun then
          (takeAct none s₁).bind fun rw s₂ =>
            match rw with
            | .err _ => .exn s₂
            | _ =>
              (takeUrl s₂).bind fun u s₃ =>
                match get_page_number_from_url u with
                | none => .exn s₃
                | some landed₂ =>
                  if landed₂ = some exp then .ok (true, landed₂) s₃
                  else gnpExpected old_url exp retries k landed₂ s₃
        else gnpExpected old_url exp retries k landed s₁

/-- `go_to_next_page` (lines 298–341) with `max_attempts = 3`: cursor-driven when
an expected cursor is known, else the structural next-arrow fallback. -/
def go_to_next_page (expected : Option Int) (retries : Nat) (s : S) :
    MRes (Bool × Option Int) :=
  (takeUrl s).bind fun old_url s₁ =>
    match get_page_number_from_url old_url with
    | none => .exn s₁
    | some old_page =>
      match (match expected with
             | some e => some e
             | none => (match old_page with | some p => some (p + 1) | none => none)) with
      | some exp => gnpExpected old_url exp retries 3 none s₁
      | none =>
        (takeCnt s₁).bind fun r s₂ =>
          match r with
          | none => .exn s₂
          | some 0 =>
            (takeUrl s₂).bind fun u₂ s₃ =>
              match get_page_number_from_url u₂ with
              | none => .exn s₃
              | some p => .ok (false, p) s₃
          | some (Nat.succ _) =>
            (takeAct (some (Act.click nextArrowSelector)) s₂).bind fun ra s₃ =>
              match ra with
              | .ok =>
                (takeAct none s₃).bind fun rw s₄ =>
                  match rw with
                  | .err _ => .exn s₄
                  | _ =>
                    (takeUrl s₄).bind fun new_url s₅ =>
                      match get_page_number_from_url new_url with
                      | none => .exn s₅
                      | some p => .ok (decide (new_url ≠ old_url), p) s₅
              | _ =>
                (takeUrl s₃).bind fun u₂ s₄ =>
                  match get_page_number_from_url u₂ with
                  | none => .exn s₄
                  | some p => .ok (false, p) s₄

/-- The command-line options the main loop consults (validated positive where
the script requires it; timeouts and delays carry no state here). -/
structure Args where
  buttonLabel : List Char
  sendRequestLabel : List Char
  maxClicks : Nat
  maxPages : Nat
  navigationRetries : Nat
  noAutoNextPage : Bool
deriving Repr, DecidableEq

/-- The mutable locals of `main` (lines 389–396 and the per-page counters). -/
structure DriverSt where
  totalClicked : Nat
  pagesProcessed : Nat
  pageClicks : Nat
  idSeq : Nat
  skipped : List (List Char)
  skippedThisPage : Nat
  totalSkipped : Nat
  lastCompletedPage : Option Int
  stop : Bool
deriving Repr, DecidableEq

/-- How one iteration of the inner control loop ends: `continue`, `break`, an
uncaught raise, or an exhausted model. -/
inductive StepRes where
  | cont (st : DriverSt) (s : S)
  | brk (st : DriverSt) (s : S)
  | exn (s : S)
  | stuck
deriving Repr

/-- Lines 526–568: after the primary click succeeded — run the modal workflow,
tally a failure outcome, otherwise poll for the count change (result unused),
count the click and check the click limit. -/
def after_primary_click (args : Args) (st : DriverSt) (selected_id : List Char)
    (count : Nat) (fuel : Nat) (s : S) : StepRes :=
  match process_invite_modal args.sendRequestLabel fuel s with
  | .ok m s₁ =>
    if m ∈ failSet then
      .cont {st with skipped := selected_id :: st.skipped,
                     skippedThisPage := st.skippedThisPage + 1,
                     totalSkipped := st.totalSkipped + 1} s₁
    else
      match wait_for_connect_change args.buttonLabel count fuel s₁ with
      | .ok _ s₂ =>
        if args.maxClicks ≠ 0 ∧ args.maxClicks ≤ st.totalClicked + 1 then
          .brk {st with totalClicked := st.totalClicked + 1,
                        pageClicks := st.pageClicks + 1, stop := true} s₂
        else
          .cont {st with totalClicked := st.totalClicked + 1,
                         pageClicks := st.pageClicks + 1} s₂
      | .exn s₂ => .exn s₂
      | .stuck => .stuck
  | .exn s₁ => .exn s₁
  | .stuck => .stuck

/-- The literal `PlaywrightTimeoutError` message fragment tested at line 499. -/
def interceptsLit : List Char := "intercepts pointer events".toList

/-- The skip bookkeeping of a failed primary click (lines 505–507 and 517–520). -/
def skipTally (st : DriverSt) (selected_id : List Char) : DriverSt :=
  {st with skipped := selected_id :: st.skipped,
           skippedThisPage := st.skippedThisPage + 1,
           totalSkipped := st.totalSkipped + 1}

/-- The primary click and its exception handling (lines 494–524), then
`after_primary_click`. -/
def primary_click (args : Args) (st : DriverSt) (selected_id : List Char)
    (count : Nat) (fuel : Nat) (s : S) : StepRes :=
  match takeAct (some (Act.click args.buttonLabel)) s with
  | .ok rc s₁ =>
    match rc with
    | .ok => after_primary_click args st selected_id count fuel s₁
    | .timeoutErr msg =>
      if listHasSub msg interceptsLit then
        match close_modal_if_open s₁ with
        | .ok true s₂ => .cont st s₂
        | .ok false s₂ => .cont (skipTally st selected_id) s₂
        | .exn s₂ => .exn s₂
        | .stuck => .stuck
      else
        match is_dialog_open s₁ with
        | .ok true s₂ =>
          match close_modal_if_open s₂ with
          | .ok true s₃ => .cont st s₃
          | .ok false s₃ => .cont (skipTally st selected_id) s₃
          | .exn s₃ => .exn s₃
          | .stuck => .stuck
        | .ok false s₂ => .cont (skipTally st selected_id) s₂
        | .exn s₂ => .exn s₂
        | .stuck => .stuck
    | .err _ =>
      match close_modal_if_open s₁ with
      | .ok true s₂ => .cont st s₂
      | .ok false s₂ => .cont (skipTally st selected_id) s₂
      | .exn s₂ => .exn s₂
      | .stuck => .stuck
  | .exn s₁ => .exn s₁
  | .stuck => .stuck

/-- The control handling once a count is at hand (lines 479–524): scan for a
selectable control, scroll it into view and click it. -/
def handle_controls (args : Args) (st : DriverSt) (count : Nat) (fuel : Nat)
    (s : S) : StepRes :=
  match select_button st.skipped st.idSeq count s with
  | .ok (none, seq') s₁ => .brk {st with idSeq := seq'} s₁
  | .ok (some id, seq') s₁ =>
    match takeAct (some Act.scroll) s₁ with
    | .ok .ok s₂ => primary_click args {st with idSeq := seq'} id count fuel s₂
    | .ok _ s₂ => .exn s₂
    | .exn s₂ => .exn s₂
    | .stuck => .stuck
  | .exn s₁ => .exn s₁
  | .stuck => .stuck

/-- One iteration of the inner `while True` (lines 444–568): resolve a lingering
modal, count the controls (with the settle probe when none show), then select
and click. -/
def control_step (args : Args) (st : DriverSt) (fuel : Nat) (s : S) : StepRes :=
  match resolve_any_open_modal args.sendRequestLabel fuel s with
  | .ok .still_open s₁ => .brk {st with stop := true} s₁
  | .ok .clear s₁ =>
    (match takeCnt s₁ with
     | .ok none s₂ => .exn s₂
     | .ok (some count₀) s₂ =>
       if count₀ = 0 then
         match discover_connect_buttons args.buttonLabel fuel 0 s₂ with
         | .ok 0 s₃ => .brk st s₃
         | .ok (Nat.succ _) s₃ =>
           (match takeCnt s₃ with
            | .ok none s₄ => .exn s₄
            | .ok (some count₁) s₄ => handle_controls args st count₁ fuel s₄
            | .exn s₄ => .exn s₄
            | .stuck => .stuck)
         | .exn s₃ => .exn s₃
         | .stuck => .stuck
       else handle_controls args st count₀ fuel s₂
     | .exn s₂ => .exn s₂
     | .stuck => .stuck)
  | .ok m s₁ =>
    .cont (if m ∈ failSet then
            {st with skippedThisPage := st.skippedThisPage + 1,
                     totalSkipped := st.totalSkipped + 1}
           else st) s₁
  | .exn s₁ => .exn s₁
  | .stuck => .stuck

/-- The inner `while True` (lines 444–568), iterated on fuel. -/
def control_loop (args : Args) : Nat → DriverSt → S → MRes DriverSt
  | 0, _, _ => .stuck
  | Nat.succ k, st, s =>
    match control_step args st k s with
    | .cont st' s' => control_loop args k st' s'
    | .brk st' s' => .ok st' s'
    | .exn s' => .exn s'
    | .stuck => .stuck

/-- How one iteration of the outer `while True` ends: the run halts (with the
final totals of the Done line), or continues with the next page. -/
inductive IterRes where
  | halted (totalClicked pagesProcessed totalSkipped : Nat) (s : S)
  | next (st : DriverSt) (s : S)
  | exn (s : S)
  | stuck
deriving Repr

/-- How the rollback guard ends: proceed to the controls with the (possibly
refreshed) cursor, or abort the run. -/
inductive RbRes where
  | proceed (cur : Option Int) (s : S)
  | halt (s : S)
  | exn (s : S)
  | stuck
deriving Repr

/-- Lines 401–432: when the landed cursor is strictly below the last confirmed
one, re-read the URL, navigate once to its rewrite at `lastCompleted + 1` (with
retries) and abort unless the re-read cursor reaches the confirmed one. -/
def rollback_guard (args : Args) (cur : Option Int)
    (lastC : Option Int) (s : S) : RbRes :=
  match lastC, cur with
  | some C, some c =>
    if c < C then
      match takeUrl s with
      | .ok u₁ s₀ =>
        (match with_page_number u₁ (C + 1) with
         | none => .exn s₀
         | some ru =>
           match goto_with_retries ru args.navigationRetries s₀ with
           | .ok true s₁ =>
             (match takeUrl s₁ with
              | .ok u₂ s₂ =>
                match get_page_number_from_url u₂ with
                | none => .exn s₂
                | some none => .halt s₂
                | some (some c₂) => if c₂ < C then .halt s₂ else .proceed (some c₂) s₂
              | .exn s₂ => .exn s₂
              | .stuck => .stuck)
           | .ok false s₁ => .halt s₁
           | .exn s₁ => .exn s₁
           | .stuck => .stuck)
      | .exn s₀ => .exn s₀
      | .stuck => .stuck
    else .proceed (some c) s
  | _, cur₀ => .proceed cur₀ s

/-- Lines 569–601: after the inner loop broke — stop if flagged, confirm the
cursor, apply the page limit and pagination switches, then move on. -/
def after_controls (args : Args) (cur : Option Int) (st : DriverSt) (s : S) : IterRes :=
  if st.stop then .halted st.totalClicked st.pagesProcessed st.totalSkipped s
  else
    match cur with
    | some c =>
      if args.maxPages ≠ 0 ∧ args.maxPages ≤ st.pagesProcessed then
        .halted st.totalClicked st.pagesProcessed st.totalSkipped s
      else if args.noAutoNextPage then
        .halted st.totalClicked st.pagesProcessed st.totalSkipped s
      else
        match go_to_next_page (some (c + 1)) args.navigationRetries s with
        | .ok p s₁ =>
          if p.1 then .next {st with lastCompletedPage := some c} s₁
          else .halted st.totalClicked st.pagesProcessed st.totalSkipped s₁
        | .exn s₁ => .exn s₁
        | .stuck => .stuck
    | none =>
      if args.maxPages ≠ 0 ∧ args.maxPages ≤ st.pagesProcessed then
        .halted st.totalClicked st.pagesProcessed st.totalSkipped s
      else if args.noAutoNextPage then
        .halted st.totalClicked st.pagesProcessed st.totalSkipped s
      else
        match go_to_next_page none args.navigationRetries s with
        | .ok p s₁ =>
          if p.1 then .next st s₁
          else .halted st.totalClicked st.pagesProcessed st.totalSkipped s₁
        | .exn s₁ => .exn s₁
        | .stuck => .stuck

/-- One iteration of the outer `while True` (lines 397–601): closed check, cursor
read, rollback guard, fresh per-page counters and an emptied skip registry, the
control loop, then the post-page steps. -/
def main_iter (args : Args) (st : DriverSt) (fuel : Nat) (s : S) : IterRes :=
  match takeClosed s with
  | .ok true s₁ => .halted st.totalClicked st.pagesProcessed st.totalSkipped s₁
  | .ok false s₁ =>
    (match takeUrl s₁ with
     | .ok u s₂ =>
       match get_page_number_from_url u with
       | none => .exn s₂
       | some cur =>
         match rollback_guard args cur st.lastCompletedPage s₂ with
         | .proceed cur' s₃ =>
           (match control_loop args fuel
               {st with pagesProcessed := st.pagesProcessed + 1, pageClicks := 0,
                        skippedThisPage := 0, skipped := []} s₃ with
            | .ok st' s₄ => after_controls args cur' st' s₄
            | .exn s₄ => .exn s₄
            | .stuck => .stuck)
         | .halt s₃ => .halted st.totalClicked st.pagesProcessed st.totalSkipped s₃
         | .exn s₃ => .exn s₃
         | .stuck => .stuck
     | .exn s₂ => .exn s₂
     | .stuck => .stuck)
  | .exn s₁ => .exn s₁
  | .stuck => .stuck

/-- The outer `while True`, iterated on fuel. -/
def main_loop (args : Args) : Nat → DriverSt → S → MRes (Nat × Nat × Nat)
  | 0, _, _ => .stuck
  | Nat.succ k, st, s =>
    match main_iter args st k s with
    | .next st' s' => main_loop args k st' s'
    | .halted tc pp ts s' => .ok (tc, pp, ts) s'
    | .exn s' => .exn s'
    | .stuck => .stuck

/-- The actions of a completed `goto_with_retries` run: between 1 and `n`
navigations, all to the same URL. -/
theorem gotoLoop_acts : ∀ (n : Nat) (u : List Char) (s : S) (b : Bool) (s' : S),
    1 ≤ n → gotoLoop u n s = MRes.ok b s' →
    ∃ k, 1 ≤ k ∧ k ≤ n ∧ s'.acts = s.acts ++ List.replicate k (Act.goto u) := by
  intro n
  induction n with
  | zero =>
    intro u s b s' h hgl
    omega
  | succ rem ih =>
    intro u s b s' h hgl
    obtain ⟨evs, acts⟩ := s
    cases evs with
    | nil =>
      simp only [gotoLoop, takeAct, MRes.bind] at hgl
      cases hgl
    | cons e evs' =>
      cases e with
      | cnt r =>
        simp only [gotoLoop, takeAct, MRes.bind] at hgl
        cases hgl
      | attr r =>
        simp only [gotoLoop, takeAct, MRes.bind] at hgl
        cases hgl
      | timeCmp b₂ =>
        simp only [gotoLoop, takeAct, MRes.bind] at hgl
        cases hgl
      | url u₂ =>
        simp only [gotoLoop, takeAct, MRes.bind] at hgl
        cases hgl
      | closed b₂ =>
        simp only [gotoLoop, takeAct, MRes.bind] at hgl
        cases hgl
      | act r =>
        simp only [gotoLoop, takeAct, MRes.bind] at hgl
        cases r with
        | ok =>
          cases hgl
          exact ⟨1, le_refl 1, by omega, by simp⟩
        | timeoutErr m =>
          cases rem with
          | zero =>
            cases hgl
            exact ⟨1, le_refl 1, by omega, by simp⟩
          | succ rem' =>
            obtain ⟨k, hk1, hk2, hk3⟩ :=
              ih u ⟨evs', acts ++ [Act.goto u]⟩ b s' (by omega) hgl
            refine ⟨k + 1, by omega, by omega, ?_⟩
            rw [hk3]
            simp [List.replicate_succ]
        | err m =>
          cases rem with
          | zero =>
            cases hgl
            exact ⟨1, le_refl 1, by omega, by simp⟩
          | succ rem' =>
            obtain ⟨k, hk1, hk2, hk3⟩ :=
              ih u ⟨evs', acts ++ [Act.goto u]⟩ b s' (by omega) hgl
            refine ⟨k + 1, by omega, by omega, ?_⟩
            rw [hk3]
            simp [List.replicate_succ]

/-- Default options: `Connect` / `Send Request`, no click or page limit, three
navigation retries, pagination on. -/
def args0 : Args := ⟨"Connect".toList, "Send Request".toList, 0, 0, 3, false⟩

/-- `args0` with `--max-clicks 1`. -/
def args1 : Args := ⟨"Connect".toList, "Send Request".toList, 1, 0, 3, false⟩

/-- The driver state at startup (line 389–396). -/
def st0 : DriverSt := ⟨0, 0, 0, 1, [], 0, 0, none, false⟩

/-- C6: when no element with the dialog role is present (the dialog count reads
0), the modal resolver returns `clear` at once, performing no action and leaving
the remaining oracle untouched. -/
theorem claim_C6 : ∀ (lbl : List Char) (fuel : Nat) (evs : List Ev) (acts : List Act),
    resolve_any_open_modal lbl fuel ⟨Ev.cnt (some 0) :: evs, acts⟩ =
      MRes.ok ModalStatus.clear ⟨evs, acts⟩ := by
  intro lbl fuel evs acts
  rfl

/-- C5 (amended): after a successful primary click, exactly the four outcomes
`blocked`, `send_timeout`, `send_error`, `stalled_modal` of the invite-modal
workflow add the control to the skip registry and raise the skip tallies — and
the loop continues rather than aborting; the `no_modal` outcome instead counts
the click as successful (no tally). -/
theorem claim_C5 :
    (∀ (args : Args) (st : DriverSt) (id : List Char) (count fuel : Nat) (s : S)
        (m : ModalStatus) (s₁ : S),
      process_invite_modal args.sendRequestLabel fuel s = MRes.ok m s₁ →
      m ∈ failSet →
      after_primary_click args st id count fuel s =
        StepRes.cont {st with skipped := id :: st.skipped,
                              skippedThisPage := st.skippedThisPage + 1,
                              totalSkipped := st.totalSkipped + 1} s₁) ∧
    (∀ (args : Args) (st : DriverSt) (id : List Char) (count fuel : Nat) (s : S)
        (s₁ : S) (b : Bool) (s₂ : S),
      process_invite_modal args.sendRequestLabel fuel s = MRes.ok ModalStatus.no_modal s₁ →
      wait_for_connect_change args.buttonLabel count fuel s₁ = MRes.ok b s₂ →
      after_primary_click args st id count fuel s =
        (if args.maxClicks ≠ 0 ∧ args.maxClicks ≤ st.totalClicked + 1 then
          StepRes.brk {st with totalClicked := st.totalClicked + 1,
                               pageClicks := st.pageClicks + 1, stop := true} s₂
        else
          StepRes.cont {st with totalClicked := st.totalClicked + 1,
                                pageClicks := st.pageClicks + 1} s₂)) := by
  constructor
  · intro args st id count fuel s m s₁ hp hm
    simp only [after_primary_click, hp]
    rw [if_pos hm]
  · intro args st id count fuel s s₁ b s₂ hp hw
    simp only [after_primary_click, hp, hw]
    rw [if_neg (by decide : ¬ModalStatus.no_modal ∈ failSet)]

/-- C5 witness: a concrete `blocked` outcome is tallied and the loop continues. -/
theorem claim_C5_witness :
    process_invite_modal args0.sendRequestLabel 5
        ⟨[Ev.act ActRes.ok, Ev.cnt (some 1), Ev.cnt (some 1), Ev.cnt (some 1),
          Ev.cnt (some 1), Ev.act ActRes.ok], []⟩ =
      MRes.ok ModalStatus.blocked ⟨[], [Act.click ("Cancel".toList)]⟩ ∧
    ModalStatus.blocked ∈ failSet ∧
    after_primary_click args0 st0 ("b1".toList) 1 5
        ⟨[Ev.act ActRes.ok, Ev.cnt (some 1), Ev.cnt (some 1), Ev.cnt (some 1),
          Ev.cnt (some 1), Ev.act ActRes.ok], []⟩ =
      StepRes.cont {st0 with skipped := "b1".toList :: st0.skipped,
                             skippedThisPage := st0.skippedThisPage + 1,
                             totalSkipped := st0.totalSkipped + 1}
        ⟨[], [Act.click ("Cancel".toList)]⟩ :=
  ⟨rfl, by decide,
    claim_C5.1 args0 st0 ("b1".toList) 1 5
      ⟨[Ev.act ActRes.ok, Ev.cnt (some 1), Ev.cnt (some 1), Ev.cnt (some 1),
        Ev.cnt (some 1), Ev.act ActRes.ok], []⟩
      ModalStatus.blocked ⟨[], [Act.click ("Cancel".toList)]⟩ rfl (by decide)⟩

/-- C5 counterexample: a `no_modal` outcome does not raise the skip tally — the
click is counted as a success (`total_clicked` becomes 1, `total_skipped` stays
0), refuting the claim that every non-`sent` outcome is tallied. -/
theorem claim_C5_counterexample :
    after_primary_click args0 st0 ("b0".toList) 1 5
        ⟨[Ev.act (ActRes.timeoutErr []), Ev.timeCmp false], []⟩ =
      StepRes.cont {st0 with totalClicked := 1, pageClicks := 1} ⟨[], []⟩ ∧
    ({st0 with totalClicked := 1, pageClicks := 1}).totalSkipped = 0 :=
  ⟨rfl, rfl⟩

/-- C10: after a successful primary click whose modal workflow reported `sent`
or `no_modal`, the click counter is incremented no matter which boolean the
confirmation poll returned — the poll's result is discarded. -/
theorem claim_C10 : ∀ (args : Args) (st : DriverSt) (id : List Char)
    (count fuel : Nat) (s : S) (m : ModalStatus) (s₁ : S) (b : Bool) (s₂ : S),
    process_invite_modal args.sendRequestLabel fuel s = MRes.ok m s₁ →
    (m = ModalStatus.sent ∨ m = ModalStatus.no_modal) →
    wait_for_connect_change args.buttonLabel count fuel s₁ = MRes.ok b s₂ →
    after_primary_click args st id count fuel s =
      (if args.maxClicks ≠ 0 ∧ args.maxClicks ≤ st.totalClicked + 1 then
        StepRes.brk {st with totalClicked := st.totalClicked + 1,
                             pageClicks := st.pageClicks + 1, stop := true} s₂
      else
        StepRes.cont {st with totalClicked := st.totalClicked + 1,
                              pageClicks := st.pageClicks + 1} s₂) := by
  intro args st id count fuel s m s₁ b s₂ hp hm hw
  simp only [after_primary_click, hp, hw]
  rcases hm with rfl | rfl
  · rw [if_neg (by decide : ¬ModalStatus.sent ∈ failSet)]
  · rw [if_neg (by decide : ¬ModalStatus.no_modal ∈ failSet)]

/-- C10 witness: a concrete `sent` outcome with a confirming poll; the counter
increments. -/
theorem claim_C10_witness :
    process_invite_modal args0.sendRequestLabel 5
        ⟨[Ev.act ActRes.ok, Ev.cnt (some 0), Ev.act ActRes.ok, Ev.timeCmp true,
          Ev.cnt (some 0), Ev.cnt (some 0), Ev.timeCmp true, Ev.cnt (some 0)], []⟩ =
      MRes.ok ModalStatus.sent
        ⟨[Ev.timeCmp true, Ev.cnt (some 0)], [Act.click ("Send Request".toList)]⟩ ∧
    wait_for_connect_change args0.buttonLabel 1 5
        ⟨[Ev.timeCmp true, Ev.cnt (some 0)], [Act.click ("Send Request".toList)]⟩ =
      MRes.ok true ⟨[], [Act.click ("Send Request".toList)]⟩ ∧
    after_primary_click args0 st0 ("b2".toList) 1 5
        ⟨[Ev.act ActRes.ok, Ev.cnt (some 0), Ev.act ActRes.ok, Ev.timeCmp true,
          Ev.cnt (some 0), Ev.cnt (some 0), Ev.timeCmp true, Ev.cnt (some 0)], []⟩ =
      StepRes.cont {st0 with totalClicked := 1, pageClicks := 1}
        ⟨[], [Act.click ("Send Request".toList)]⟩ := by
  refine ⟨rfl, rfl, ?_⟩
  have h := claim_C10 args0 st0 ("b2".toList) 1 5
    ⟨[Ev.act ActRes.ok, Ev.cnt (some 0), Ev.act ActRes.ok, Ev.timeCmp true,
      Ev.cnt (some 0), Ev.cnt (some 0), Ev.timeCmp true, Ev.cnt (some 0)], []⟩
    ModalStatus.sent
    ⟨[Ev.timeCmp true, Ev.cnt (some 0)], [Act.click ("Send Request".toList)]⟩ true
    ⟨[], [Act.click ("Send Request".toList)]⟩ rfl (Or.inl rfl) rfl
  rw [if_neg (by decide)] at h
  exact h

/-- C7: when the click-limit is configured and the current successful click
reaches it, the inner loop breaks at once with the stop flag (no further
control is attempted); a break out of the control loop ends it immediately;
and with the stop flag set the post-page steps halt the run without consuming
any event or performing any action — in particular no pagination. -/
theorem claim_C7 :
    (∀ (args : Args) (st : DriverSt) (id : List Char) (count fuel : Nat) (s : S)
        (m : ModalStatus) (s₁ : S) (b : Bool) (s₂ : S),
      process_invite_modal args.sendRequestLabel fuel s = MRes.ok m s₁ →
      (m = ModalStatus.sent ∨ m = ModalStatus.no_modal) →
      wait_for_connect_change args.buttonLabel count fuel s₁ = MRes.ok b s₂ →
      args.maxClicks ≠ 0 →
      args.maxClicks ≤ st.totalClicked + 1 →
      after_primary_click args st id count fuel s =
        StepRes.brk {st with totalClicked := st.totalClicked + 1,
                             pageClicks := st.pageClicks + 1, stop := true} s₂) ∧
    (∀ (args : Args) (k : Nat) (st st' : DriverSt) (s s' : S),
      control_step args st k s = StepRes.brk st' s' →
      control_loop args (Nat.succ k) st s = MRes.ok st' s') ∧
    (∀ (args : Args) (cur : Option Int) (st : DriverSt) (s : S),
      st.stop = true →
      after_controls args cur st s =
        IterRes.halted st.totalClicked st.pagesProcessed st.totalSkipped s) := by
  refine ⟨?_, ?_, ?_⟩
  · intro args st id count fuel s m s₁ b s₂ hp hm hw h1 h2
    simp only [after_primary_click, hp, hw]
    have hnf : ¬m ∈ failSet := by
      rcases hm with rfl | rfl
      · decide
      · decide
    rw [if_neg hnf, if_pos ⟨h1, h2⟩]
  · intro args k st st' s s' hcs
    simp only [control_loop, hcs]
  · intro args cur st s hstop
    simp only [after_controls, hstop]
    rfl

/-- C7 witness: `--max-clicks 1`, the first click reaches the limit and the loop
breaks with the stop flag; the post-page steps then halt without pagination. -/
theorem claim_C7_witness :
    process_invite_modal args1.sendRequestLabel 5
        ⟨[Ev.act ActRes.ok, Ev.cnt (some 0), Ev.act ActRes.ok, Ev.timeCmp true,
          Ev.cnt (some 0), Ev.cnt (some 0), Ev.timeCmp true, Ev.cnt (some 0)], []⟩ =
      MRes.ok ModalStatus.sent
        ⟨[Ev.timeCmp true, Ev.cnt (some 0)], [Act.click ("Send Request".toList)]⟩ ∧
    args1.maxClicks = 1 ∧
    after_primary_click args1 st0 ("b3".toList) 1 5
        ⟨[Ev.act ActRes.ok, Ev.cnt (some 0), Ev.act ActRes.ok, Ev.timeCmp true,
          Ev.cnt (some 0), Ev.cnt (some 0), Ev.timeCmp true, Ev.cnt (some 0)], []⟩ =
      StepRes.brk {st0 with totalClicked := 1, pageClicks := 1, stop := true}
        ⟨[], [Act.click ("Send Request".toList)]⟩ :=
  ⟨rfl, rfl,
    claim_C7.1 args1 st0 ("b3".toList) 1 5
      ⟨[Ev.act ActRes.ok, Ev.cnt (some 0), Ev.act ActRes.ok, Ev.timeCmp true,
        Ev.cnt (some 0), Ev.cnt (some 0), Ev.timeCmp true, Ev.cnt (some 0)], []⟩
      ModalStatus.sent
      ⟨[Ev.timeCmp true, Ev.cnt (some 0)], [Act.click ("Send Request".toList)]⟩ true
      ⟨[], [Act.click ("Send Request".toList)]⟩ rfl (Or.inl rfl) rfl (by decide) (by decide)⟩

/-- C3: the outcome of a page iteration never depends on the skip registry the
iteration starts with — it is emptied first — and with the emptied registry the
scan selects the first control even when its id was registered on the previous
page. -/
theorem claim_C3 :
    (∀ (args : Args) (st : DriverSt) (l₁ l₂ : List (List Char)) (fuel : Nat) (s : S),
      main_iter args {st with skipped := l₁} fuel s =
        main_iter args {st with skipped := l₂} fuel s) ∧
    (∀ (seq rem : Nat) (c : Char) (cs : List Char) (evs : List Ev) (acts : List Act),
      select_button [] seq (Nat.succ rem) ⟨Ev.attr (some (some (c :: cs))) :: evs, acts⟩ =
        MRes.ok (some (c :: cs), seq) ⟨evs, acts⟩) := by
  constructor
  · intro args st l₁ l₂ fuel s
    rfl
  · intro seq rem c cs evs acts
    rfl

/-- C2: with a last confirmed cursor `C` and a landed cursor `c < C`, the main
iteration performs one recovery navigation — between 1 and `navigation_retries`
`goto` actions, all to the rewrite of the re-read URL to cursor `C + 1` — and
aborts the run (before any control is processed) when the navigation fails or
when the cursor read after it is unreadable or still below `C`. -/
theorem claim_C2 :
    (∀ (u : List Char) (retries : Nat) (s : S) (b : Bool) (s' : S),
      1 ≤ retries → goto_with_retries u retries s = MRes.ok b s' →
      ∃ k, 1 ≤ k ∧ k ≤ retries ∧ s'.acts = s.acts ++ List.replicate k (Act.goto u)) ∧
    (∀ (args : Args) (st : DriverSt) (fuel : Nat) (u u₁ : List Char) (c C : Int)
        (ru : List Char) (evs : List Ev) (acts : List Act) (s₁ : S),
      st.lastCompletedPage = some C →
      get_page_number_from_url u = some (some c) → c < C →
      with_page_number u₁ (C + 1) = some ru →
      goto_with_retries ru args.navigationRetries ⟨evs, acts⟩ = MRes.ok false s₁ →
      main_iter args st fuel ⟨Ev.closed false :: Ev.url u :: Ev.url u₁ :: evs, acts⟩ =
        IterRes.halted st.totalClicked st.pagesProcessed st.totalSkipped s₁) ∧
    (∀ (args : Args) (st : DriverSt) (fuel : Nat) (u u₁ : List Char) (c C : Int)
        (ru : List Char) (evs : List Ev) (acts : List Act) (s₁ : S)
        (u₂ : List Char) (evs₂ : List Ev) (cur₂ : Option Int),
      st.lastCompletedPage = some C →
      get_page_number_from_url u = some (some c) → c < C →
      with_page_number u₁ (C + 1) = some ru →
      goto_with_retries ru args.navigationRetries ⟨evs, acts⟩ = MRes.ok true s₁ →
      s₁.evs = Ev.url u₂ :: evs₂ →
      get_page_number_from_url u₂ = some cur₂ →
      (cur₂ = none ∨ ∃ c₂, cur₂ = some c₂ ∧ c₂ < C) →
      main_iter args st fuel ⟨Ev.closed false :: Ev.url u :: Ev.url u₁ :: evs, acts⟩ =
        IterRes.halted st.totalClicked st.pagesProcessed st.totalSkipped
          ⟨evs₂, s₁.acts⟩) := by
  refine ⟨?_, ?_, ?_⟩
  · intro u retries s b s' h hg
    exact gotoLoop_acts retries u s b s' h hg
  · intro args st fuel u u₁ c C ru evs acts s₁ hlc hgu hc hwp hgoto
    simp only [main_iter, takeClosed, takeUrl, hgu, hlc, rollback_guard, if_pos hc, hwp,
      hgoto]
  · intro args st fuel u u₁ c C ru evs acts s₁ u₂ evs₂ cur₂ hlc hgu hc hwp hgoto hevs
      hgu₂ hlt
    simp only [main_iter, takeClosed, takeUrl, hgu, hlc, rollback_guard, if_pos hc, hwp,
      hgoto, hevs, hgu₂]
    rcases hlt with rfl | ⟨c₂, rfl, hc₂⟩
    · rfl
    · simp [hc₂]

/-- C2 witness: landed on cursor 2 with confirmed cursor 3; the recovery
navigation to `page=4` times out three times and the run halts with exactly
those three `goto` actions. -/
theorem claim_C2_witness :
    ({st0 with lastCompletedPage := some 3} : DriverSt).lastCompletedPage = some 3 ∧
    get_page_number_from_url ("http://h/p?page=2".toList) = some (some 2) ∧
    with_page_number ("http://h/p?page=2".toList) (3 + 1) =
      some ("http://h/p?page=4".toList) ∧
    goto_with_retries ("http://h/p?page=4".toList) args0.navigationRetries
        ⟨[Ev.act (ActRes.timeoutErr []), Ev.act (ActRes.timeoutErr []),
          Ev.act (ActRes.timeoutErr [])], []⟩ =
      MRes.ok false ⟨[], [Act.goto ("http://h/p?page=4".toList),
        Act.goto ("http://h/p?page=4".toList), Act.goto ("http://h/p?page=4".toList)]⟩ ∧
    main_iter args0 {st0 with lastCompletedPage := some 3} 5
        ⟨Ev.closed false :: Ev.url ("http://h/p?page=2".toList) ::
          Ev.url ("http://h/p?page=2".toList) ::
          [Ev.act (ActRes.timeoutErr []), Ev.act (ActRes.timeoutErr []),
            Ev.act (ActRes.timeoutErr [])], []⟩ =
      IterRes.halted 0 0 0 ⟨[], [Act.goto ("http://h/p?page=4".toList),
        Act.goto ("http://h/p?page=4".toList), Act.goto ("http://h/p?page=4".toList)]⟩ :=
  ⟨rfl, rfl, rfl, rfl,
    claim_C2.2.1 args0 {st0 with lastCompletedPage := some 3} 5
      ("http://h/p?page=2".toList) ("http://h/p?page=2".toList) 2 3
      ("http://h/p?page=4".toList)
      [Ev.act (ActRes.timeoutErr []), Ev.act (ActRes.timeoutErr []),
        Ev.act (ActRes.timeoutErr [])] []
      ⟨[], [Act.goto ("http://h/p?page=4".toList), Act.goto ("http://h/p?page=4".toList),
        Act.goto ("http://h/p?page=4".toList)]⟩
      rfl rfl (by decide) rfl rfl⟩

/-- C8: on a URL without a `page` cursor and with no expected cursor supplied,
the navigator falls back to the next-arrow selector: with a control present it
clicks it, and reports success exactly when the URL read after the click differs
from the one read before. -/
theorem claim_C8 : ∀ (retries : Nat) (u u' : List Char) (k : Nat) (rw : ActRes)
    (p' : Option Int) (evs : List Ev) (acts : List Act),
    get_page_number_from_url u = some none →
    0 < k →
    (rw = ActRes.ok ∨ ∃ m, rw = ActRes.timeoutErr m) →
    get_page_number_from_url u' = some p' →
    go_to_next_page none retries
        ⟨Ev.url u :: Ev.cnt (some k) :: Ev.act ActRes.ok :: Ev.act rw ::
          Ev.url u' :: evs, acts⟩ =
      MRes.ok (decide (u' ≠ u), p') ⟨evs, acts ++ [Act.click nextArrowSelector]⟩ := by
  intro retries u u' k rw p' evs acts hgu hk hrw hgu'
  obtain ⟨k', rfl⟩ : ∃ k', k = k' + 1 := ⟨k - 1, by omega⟩
  simp only [go_to_next_page, takeUrl, takeCnt, takeAct, MRes.bind, hgu]
  rcases hrw with rfl | ⟨m, rfl⟩
  · simp only [hgu', List.append_nil]
  · simp only [hgu', List.append_nil]

/-- C8 witness: two matching arrow controls, a clean click, and a changed URL;
the fallback reports a successful move. -/
theorem claim_C8_witness :
    get_page_number_from_url ("http://h/x".toList) = some none ∧
    go_to_next_page none 3
        ⟨[Ev.url ("http://h/x".toList), Ev.cnt (some 2), Ev.act ActRes.ok,
          Ev.act ActRes.ok, Ev.url ("http://h/y".toList)], []⟩ =
      MRes.ok (true, none) ⟨[], [Act.click nextArrowSelector]⟩ := by
  refine ⟨rfl, ?_⟩
  have h := claim_C8 3 ("http://h/x".toList) ("http://h/y".toList) 2 ActRes.ok none [] []
    rfl (by decide) (Or.inl rfl) rfl
  exact h

end Pmibot
